import Mathlib

/-!
Verification of the C++ demo programs in `CPP_Resume` against their
natural-language specification.  Each C++ function relevant to a claim is
shallowly embedded as a Lean definition (machine `int` / `long long`
arithmetic is modelled as `Int` with explicit two's-complement wraparound
`i32` / `i64` where overflow is reachable), and the claims are settled as
theorems about those definitions.
-/

/-- Two's-complement wraparound of a 32-bit signed `int`: the unique value
congruent to `x` modulo `2^32` lying in `[-2^31, 2^31)`. -/
def i32 (x : Int) : Int := (x + 2 ^ 31) % 2 ^ 32 - 2 ^ 31

/-- Two's-complement wraparound of a 64-bit signed `long long`. -/
def i64 (x : Int) : Int := (x + 2 ^ 63) % 2 ^ 64 - 2 ^ 63

namespace ConstexprDemo

/-- Embeds `constexpr int factorial(int n)` from `constexpr_demo.cpp`:
`result = 1; for (i = 2; i <= n; ++i) result *= i;` on 32-bit `int`. -/
def factorial (n : Nat) : Int :=
  (List.range' 2 (n - 1)).foldl (fun r i => i32 (r * (i : Int))) 1

/-- One iteration of the `fibonacci` loop body on 32-bit `int`:
`temp = a + b; a = b; b = temp;`. -/
def fibStep (p : Int × Int) : Int × Int := (p.2, i32 (p.1 + p.2))

/-- Embeds `constexpr int fibonacci(int n)` from `constexpr_demo.cpp`:
`if (n <= 1) return n;` then the loop `for (i = 2; i <= n; ++i)` runs
`n - 1` times on state `(a, b)` initialised to `(0, 1)`, returning `b`. -/
def fibonacci (n : Nat) : Int :=
  if n ≤ 1 then n else (fibStep^[n - 1] (0, 1)).2

end ConstexprDemo

namespace RecursionDemo

/-- Embeds `long long factorial(int n)` from `recursion_demo.cpp`:
`if (n <= 1) return 1; return n * factorial(n - 1);` on `long long`. -/
def factorial : Nat → Int
  | 0 => 1
  | n + 1 => if n + 1 ≤ 1 then 1 else i64 ((n + 1 : Int) * factorial n)

/-- Embeds `long long fib_tail(int n, long long a, long long b)` from
`recursion_demo.cpp`: `if (n == 0) return a; if (n == 1) return b;
return fib_tail(n - 1, b, a + b);`. -/
def fib_tail : Nat → Int → Int → Int
  | 0, a, _ => a
  | 1, _, b => b
  | n + 2, a, b => fib_tail (n + 1) b (i64 (a + b))

/-- The move string pushed by `hanoi`:
`"Move disk " + std::to_string(n) + " from " + from + " to " + to`. -/
def hanoiMove (n : Nat) (f t : Char) : String :=
  "Move disk " ++ toString n ++ " from " ++ toString f ++ " to " ++ toString t

/-- Embeds `void hanoi(int n, char from, char to, char aux, vector<string>& moves)`
from `recursion_demo.cpp`, returning the list of strings appended to `moves`.
For `n = 1` a single move is emitted; for `n ≥ 2` the two recursive calls
bracket the middle move.  (The C++ function never terminates for `n ≤ 0`;
the claim is restricted to `n ≥ 1`, and the `n = 0` equation is unreachable
there.) -/
def hanoi : Nat → Char → Char → Char → List String
  | 0, _, _, _ => []
  | 1, f, t, _ => [hanoiMove 1 f t]
  | n + 2, f, t, a =>
      (hanoi (n + 1) f a t ++ [hanoiMove (n + 2) f t]) ++ hanoi (n + 1) a t f

end RecursionDemo

namespace DpDemo

/-- The `dp` vector built by `fib_dp` up to index `n` (for `n ≥ 1`):
`dp[0] = 0; dp[1] = 1; dp[i] = dp[i-1] + dp[i-2]` on `long long`. -/
def fibDpVec : Nat → List Int
  | 0 => [0]
  | 1 => [0, 1]
  | n + 2 =>
      let dp := fibDpVec (n + 1)
      dp ++ [i64 (dp.getD n 0 + dp.getD (n + 1) 0)]

/-- Embeds `long long fib_dp(int n)` from `dp_demo.cpp`:
`if (n <= 1) return n;` then return `dp[n]` of the bottom-up table. -/
def fib_dp (n : Nat) : Int :=
  if n ≤ 1 then n else (fibDpVec n).getD n 0

end DpDemo

namespace ErrorDemo

/-- Embeds `void validate_age(int age)` from `error_demo.cpp` as an
`Except`: throwing `std::invalid_argument(msg)` is modelled as
`Except.error msg`, returning normally as `Except.ok ()`.  The function
reads only its argument and touches no other state, so the embedding is a
pure function. -/
def validate_age (age : Int) : Except String Unit :=
  if age < 0 then Except.error "年龄不能为负"
  else if age > 150 then Except.error "年龄不合理"
  else Except.ok ()

/-- The loop of `find_index` starting at index `i`:
`for (; i < v.size(); ++i) if (v[i] == target) return (int)i;`. -/
def findIndexFrom (v : List Int) (target : Int) (i : Nat) : Option Int :=
  match v with
  | [] => none
  | x :: xs => if x = target then some (i : Int) else findIndexFrom xs target (i + 1)

/-- Embeds `std::optional<int> find_index(const vector<int>& v, int target)`
from `error_demo.cpp`. -/
def find_index (v : List Int) (target : Int) : Option Int :=
  findIndexFrom v target 0

end ErrorDemo

namespace DpDemo

/-- The inner loop of `unique_paths` (`for (j = 1; j < n; ++j) dp[j] += dp[j-1];`)
acting on the tail of the row: `prev` is the already-updated value of
`dp[j-1]`, and each `dp[j]` becomes `dp[j] + dp[j-1]` on 32-bit `int`. -/
def upInner : Int → List Int → List Int
  | _, [] => []
  | prev, d :: ds =>
      let v := i32 (d + prev)
      v :: upInner v ds

/-- One iteration of the outer loop of `unique_paths`: `dp[0]` is untouched
(the inner loop starts at `j = 1`). -/
def upRow : List Int → List Int
  | [] => []
  | d0 :: ds => d0 :: upInner d0 ds

/-- Embeds `int unique_paths(int m, int n)` from `dp_demo.cpp`:
`vector<int> dp(n, 1);` then the outer loop runs for `i = 1 .. m-1`
(`m - 1` times) and the result is `dp[n-1]`. -/
def unique_paths (m n : Nat) : Int :=
  (upRow^[m - 1] (List.replicate n 1)).getD (n - 1) 0

/-- The mathematically intended content of the `unique_paths` row after `i`
outer iterations: `dp[j]` holds the binomial coefficient `C(i+j, j)`,
reduced by 32-bit wraparound. -/
def pascalRow (i n : Nat) : List Int :=
  (List.range' 0 n).map fun j => i32 ((i + j).choose j : Int)

end DpDemo

namespace RaiiDemo

/-- The file system visible to `raii_demo`, as a map from file names to
contents. -/
abbrev FS := String → Option String

/-- Effect on the file system of `fopen(name, "w")` (wrapped by the
`FileHandle` constructor): the file is created, or truncated to empty if it
already exists. -/
def fopenW (fs : FS) (name : String) : FS :=
  fun f => if f = name then some "" else fs f

/-- Effect of `FileHandle::write` (`fprintf(file_, "%s", text)`): appends
`text` to the file's contents. -/
def writeFile (fs : FS) (name text : String) : FS :=
  fun f => if f = name then some ((fs name).getD "" ++ text) else fs f

/-- Effect of `std::remove(name)`: the file no longer exists. -/
def removeFile (fs : FS) (name : String) : FS :=
  fun f => if f = name then none else fs f

/-- Splits a character stream into the strings successive `fgets` calls
return: each line includes its trailing newline (every line of the demo file
is shorter than the 256-byte buffer), and a final unterminated line, if any,
is returned as-is. -/
def readLinesAux : List Char → List Char → List String
  | acc, [] => if acc.isEmpty then [] else [String.mk acc.reverse]
  | acc, c :: rest =>
      if c = '\n' then String.mk (acc.reverse ++ ['\n']) :: readLinesAux [] rest
      else readLinesAux (c :: acc) rest

/-- The sequence of lines returned by the `read_line` loop of
`demo_file_handle`: the loop stops at the first empty result, i.e. at end of
file, since no returned line is empty (each contains at least its newline). -/
def readLines (content : String) : List String :=
  readLinesAux [] content.toList

/-- File-system effect of `demo_file_handle` in `raii_demo.cpp`: open
`raii_test.txt` for writing, write the two test lines (the handle is closed
when the scope ends), then reopen for reading, which changes nothing. -/
def demo_file_handle (fs : FS) : FS :=
  writeFile (writeFile (fopenW fs "raii_test.txt") "raii_test.txt" "Hello, RAII!\n")
    "raii_test.txt" "This is a test.\n"

/-- File-system effect of `main` in `raii_demo.cpp`: of the five demo
functions only `demo_file_handle` touches the file system, and before
returning `main` calls `std::remove("raii_test.txt")`. -/
def raiiMain (fs : FS) : FS :=
  removeFile (demo_file_handle fs) "raii_test.txt"

end RaiiDemo

namespace DpDemo

/-- The inner `for (int coin : coins)` loop of `coin_change` computing
`dp[i]` into the accumulator `cur` (initially `amount + 1`, the value the
vector was filled with): for every coin with
`coin <= i && dp[i - coin] != amount + 1` it takes the `min` with
`dp[i - coin] + 1`. -/
def coinFold (dp : List Int) (amount i : Nat) : List Int → Int → Int
  | [], cur => cur
  | coin :: cs, cur =>
      coinFold dp amount i cs
        (if coin ≤ (i : Int) ∧ dp.getD ((i : Int) - coin).toNat 0 ≠ (amount : Int) + 1
         then min cur (dp.getD ((i : Int) - coin).toNat 0 + 1) else cur)

/-- The `dp` table of `coin_change` after the outer loop has processed
indices `1 .. t`: `dp[0] = 0` and each further entry is produced by the coin
loop. -/
def coinDp (coins : List Int) (amount : Nat) : Nat → List Int
  | 0 => [0]
  | t + 1 =>
      let dp := coinDp coins amount t
      dp ++ [coinFold dp amount (t + 1) coins ((amount : Int) + 1)]

/-- Embeds `int coin_change(const vector<int>& coins, int amount)` from
`dp_demo.cpp`: builds `dp[0..amount]` and returns
`dp[amount] > amount ? -1 : dp[amount]`. -/
def coin_change (coins : List Int) (amount : Nat) : Int :=
  if (amount : Int) < (coinDp coins amount amount).getD amount 0 then -1
  else (coinDp coins amount amount).getD amount 0

/-- `CanMake coins k t`: some list of `k` coins drawn (with repetition) from
`coins` sums to `t`. -/
def CanMake (coins : List Int) (k : Nat) (t : Int) : Prop :=
  ∃ l : List Int, (∀ c ∈ l, c ∈ coins) ∧ l.length = k ∧ l.sum = t

/-- The intended meaning of a `coin_change` table entry `v = dp[i]`: the
sentinel `amount + 1` when no multiset of coins sums to `i`, otherwise the
minimum number of coins summing to `i` (which, for strictly positive coins,
is at most `i`). -/
def CoinVal (coins : List Int) (amount i : Nat) (v : Int) : Prop :=
  (v = (amount : Int) + 1 ∧ ∀ k : Nat, ¬ CanMake coins k (i : Int)) ∨
  (0 ≤ v ∧ v ≤ (i : Int) ∧ CanMake coins v.toNat (i : Int) ∧
    ∀ k : Nat, CanMake coins k (i : Int) → v ≤ (k : Int))

end DpDemo

namespace SortDemo

/-- `arr[i]` for an `int` index as used by `sort_search_demo.cpp`; every
access in a reachable execution is in bounds, so the `getD` default is
never consulted there. -/
def geti (arr : List Int) (i : Int) : Int := arr.getD i.toNat 0

/-- `std::swap(arr[i], arr[j])`. -/
def swapi (arr : List Int) (i j : Int) : List Int :=
  (arr.set i.toNat (geti arr j)).set j.toNat (geti arr i)

/-- The loop `for (j = low; j < high; ++j)` of `partition` in
`sort_search_demo.cpp`, with `i` the index of the last element known to be
smaller than the pivot; returns the final array and `i`. -/
def partitionLoop (pivot high : Int) (arr : List Int) (i j : Int) : List Int × Int :=
  if h : j < high then
    if geti arr j < pivot then
      partitionLoop pivot high (swapi arr (i + 1) j) (i + 1) (j + 1)
    else
      partitionLoop pivot high arr i (j + 1)
  else (arr, i)
termination_by (high - j).toNat
decreasing_by
  · omega
  · omega

/-- Embeds `int partition(vector<int>& arr, int low, int high)`:
`pivot = arr[high]; i = low - 1;`, the loop, then
`swap(arr[i+1], arr[high]); return i + 1;`.  Returns the updated array
together with the returned index. -/
def partitionFn (arr : List Int) (low high : Int) : List Int × Int :=
  let pivot := geti arr high
  let res := partitionLoop pivot high arr (low - 1) low
  (swapi res.1 (res.2 + 1) high, res.2 + 1)

/-- Embeds `void quick_sort_impl(vector<int>& arr, int low, int high)`.
`partition` is called once in the C++ code; the embedding is pure, so the
repeated syntactic occurrences of `partitionFn arr low high` all denote that
single call's result. -/
def quickSortImpl (arr : List Int) (low high : Int) : List Int :=
  if h : low < high then
    quickSortImpl
      (quickSortImpl (partitionFn arr low high).1 low ((partitionFn arr low high).2 - 1))
      ((partitionFn arr low high).2 + 1) high
  else arr
termination_by (high + 1 - low).toNat
decreasing_by
  all_goals
    have key : ∀ (fuel : Nat) (a : List Int) (i j : Int), (high - j).toNat ≤ fuel →
        i < j → j ≤ high →
        i ≤ (partitionLoop (geti arr high) high a i j).2 ∧
        (partitionLoop (geti arr high) high a i j).2 < high := by
      intro fuel
      induction fuel with
      | zero =>
          intro a i j hf hij hjh
          rw [partitionLoop]
          rw [dif_neg (show ¬ j < high by omega)]
          exact ⟨le_refl i, by omega⟩
      | succ m ih =>
          intro a i j hf hij hjh
          rw [partitionLoop]
          by_cases hjlt : j < high
          · rw [dif_pos hjlt]
            by_cases hlt : geti a j < geti arr high
            · rw [if_pos hlt]
              have hr := ih (swapi a (i + 1) j) (i + 1) (j + 1) (by omega) (by omega) (by omega)
              exact ⟨by omega, hr.2⟩
            · rw [if_neg hlt]
              have hr := ih a i (j + 1) (by omega) (by omega) (by omega)
              exact ⟨by omega, hr.2⟩
          · rw [dif_neg hjlt]
            exact ⟨le_refl i, by omega⟩
    have hsnd : (partitionFn arr low high).2 =
        (partitionLoop (geti arr high) high arr (low - 1) low).2 + 1 := rfl
    have hb := key (high - low).toNat arr (low - 1) low (le_refl _) (by omega) (by omega)
    omega


/-- Embeds `void quick_sort(vector<int>& arr)`:
`if (arr.empty()) return; quick_sort_impl(arr, 0, arr.size() - 1);`. -/
def quick_sort (arr : List Int) : List Int :=
  if arr.isEmpty then arr else quickSortImpl arr 0 ((arr.length : Int) - 1)

end SortDemo

namespace DpDemo

/-- One step of the double loop of `length_of_lis_n2`: the table holds the
pairs `(nums[j], dp[j])` for the processed prefix, and the new entry
`dp[i]` starts at `1` and takes `max` with `dp[j] + 1` over every earlier
`j` with `nums[j] < nums[i]`.  (The C++ code initialises the whole `dp`
vector to `1` up front and fills it in place; each `dp[i]` reads only the
finished entries `dp[j]`, `j < i`, so the table is equivalently built left
to right.) -/
def lisDpStep (acc : List (Int × Int)) (x : Int) : List (Int × Int) :=
  acc ++ [(x, acc.foldl (fun mx q => if q.1 < x then max mx (q.2 + 1) else mx) 1)]

/-- The `(nums[i], dp[i])` table of `length_of_lis_n2` after the double
loop. -/
def lisPairs (nums : List Int) : List (Int × Int) :=
  nums.foldl lisDpStep []

/-- Embeds `int length_of_lis_n2(const vector<int>& nums)` from
`dp_demo.cpp`: `0` for the empty vector, otherwise `max_len`, which starts
at `1 = dp[0]` and accumulates `max` over the remaining `dp` entries. -/
def length_of_lis_n2 (nums : List Int) : Int :=
  if nums = [] then 0 else (lisPairs nums).foldl (fun mx q => max mx q.2) 1

/-- The index returned by `std::lower_bound(tails.begin(), tails.end(), num)`:
the first position whose element is not less than `num`.  (The C++ call is a
binary search whose contract requires a partitioned range; `tails` is always
sorted — proved below as part of `TailsInv` — and on a sorted range
`lower_bound` returns exactly this index.) -/
def lowerBoundIdx : List Int → Int → Nat
  | [], _ => 0
  | t :: ts, x => if t < x then lowerBoundIdx ts x + 1 else 0

/-- One iteration of the loop of `length_of_lis`: append `num` when
`it == tails.end()`, otherwise overwrite `*it` with `num`. -/
def lisTailsStep (tails : List Int) (x : Int) : List Int :=
  if lowerBoundIdx tails x = tails.length then tails ++ [x]
  else tails.set (lowerBoundIdx tails x) x

/-- Embeds `int length_of_lis(const vector<int>& nums)` from `dp_demo.cpp`:
the final size of `tails`. -/
def length_of_lis (nums : List Int) : Int :=
  ((nums.foldl lisTailsStep []).length : Int)

/-- `Reach l k t`: some strictly increasing subsequence of `l` has length
`k` and last element `t`. -/
def Reach (l : List Int) (k : Nat) (t : Int) : Prop :=
  ∃ s : List Int, s.Sublist l ∧ List.Chain' (· < ·) s ∧ s.length = k ∧
    s.getLast? = some t

/-- The invariant of the `tails` vector of `length_of_lis` after processing
the prefix `p`: it is strictly increasing; `tails[i]` ends some strictly
increasing subsequence of `p` of length `i + 1`; and every strictly
increasing subsequence of `p` of length `k + 1` has `k < tails.length` and
last element at least `tails[k]` (minimality). -/
def TailsInv (p tails : List Int) : Prop :=
  List.Pairwise (· < ·) tails ∧
  (∀ i : Nat, i < tails.length → Reach p (i + 1) (tails.getD i 0)) ∧
  (∀ (k : Nat) (t : Int), Reach p (k + 1) t → k < tails.length ∧ tails.getD k 0 ≤ t)

/-- `EndAt p i s`: `s` is a subsequence of `p` ending exactly at position
`i` — the shape of subsequence measured by `dp[i]` in `length_of_lis_n2`. -/
def EndAt (p : List Int) (i : Nat) (s : List Int) : Prop :=
  ∃ s2 : List Int, s = s2 ++ [p.getD i 0] ∧ s2.Sublist (p.take i)

/-- The invariant of the table of `length_of_lis_n2` after processing the
prefix `p`: first components are `p` itself, and each `dp[i]` is the length
of a longest strictly increasing subsequence of `p` ending at position
`i`. -/
def PairsInv (p : List Int) (acc : List (Int × Int)) : Prop :=
  acc.map Prod.fst = p ∧
  ∀ i : Nat, i < acc.length →
    (1 ≤ (acc.getD i (0, 0)).2 ∧
     (∃ s : List Int, EndAt p i s ∧ List.Chain' (· < ·) s ∧
       (s.length : Int) = (acc.getD i (0, 0)).2) ∧
     (∀ s : List Int, EndAt p i s → List.Chain' (· < ·) s →
       (s.length : Int) ≤ (acc.getD i (0, 0)).2))

end DpDemo

/-! ### Helper lemmas for the easy claims -/

theorem RecursionDemo.hanoi_succ_length (n : Nat) :
    ∀ f t a : Char, (RecursionDemo.hanoi (n + 1) f t a).length = 2 ^ (n + 1) - 1 := by
  induction n with
  | zero => intro f t a; rfl
  | succ m ih =>
      intro f t a
      show ((hanoi (m + 1) f a t ++ [hanoiMove (m + 2) f t]) ++ hanoi (m + 1) a t f).length = _
      rw [List.length_append, List.length_append, ih, ih]
      simp only [List.length_singleton]
      have h2 : 2 ^ (m + 2) = 2 ^ (m + 1) + 2 ^ (m + 1) := by ring
      have hp : 1 ≤ 2 ^ (m + 1) := Nat.one_le_two_pow
      omega

theorem ErrorDemo.findIndexFrom_none (v : List Int) (target : Int) :
    ∀ s : Nat, (ErrorDemo.findIndexFrom v target s = none ↔ target ∉ v) := by
  induction v with
  | nil => intro s; simp [ErrorDemo.findIndexFrom]
  | cons x xs ih =>
      intro s
      by_cases hx : x = target
      · simp [ErrorDemo.findIndexFrom, hx]
      · simp only [ErrorDemo.findIndexFrom, if_neg hx, ih, List.mem_cons]
        constructor
        · intro h hmem
          rcases hmem with h1 | h2
          · exact hx h1.symm
          · exact h h2
        · intro h hmem; exact h (Or.inr hmem)

theorem ErrorDemo.findIndexFrom_some (v : List Int) (target : Int) :
    ∀ (s : Nat) (r : Int), (ErrorDemo.findIndexFrom v target s = some r ↔
      ∃ k : Nat, k < v.length ∧ r = (s : Int) + (k : Int) ∧ v.getD k 0 = target ∧
        ∀ m : Nat, m < k → v.getD m 0 ≠ target) := by
  induction v with
  | nil => intro s r; simp [ErrorDemo.findIndexFrom]
  | cons x xs ih =>
      intro s r
      by_cases hx : x = target
      · simp only [ErrorDemo.findIndexFrom, if_pos hx, Option.some_inj]
        constructor
        · intro h
          refine ⟨0, by simp, by omega, by simpa using hx, by omega⟩
        · rintro ⟨k, hk, hr, hget, hmin⟩
          rcases Nat.eq_zero_or_pos k with rfl | hpos
          · omega
          · exact absurd hx (by simpa using hmin 0 hpos)
      · simp only [ErrorDemo.findIndexFrom, if_neg hx, ih]
        constructor
        · rintro ⟨k, hk, hr, hget, hmin⟩
          refine ⟨k + 1, by simpa using hk, by push_cast; omega, by simpa using hget, ?_⟩
          intro m hm
          match m with
          | 0 => simpa using hx
          | m + 1 => simpa using hmin m (by omega)
        · rintro ⟨k, hk, hr, hget, hmin⟩
          match k with
          | 0 => exact absurd (by simpa using hget) hx
          | k + 1 =>
              refine ⟨k, by simpa using hk, by push_cast at hr ⊢; omega,
                by simpa using hget, ?_⟩
              intro m hm
              have := hmin (m + 1) (by omega)
              simpa using this

/-! ### Claim theorems C2, C3, C4, C5, C7 -/

set_option maxRecDepth 40000 in
/-- Claim C2 (confirmed): each of the three Fibonacci implementations named
by the claim returns the n-th Fibonacci number (`F(0) = 0`, `F(1) = 1`) for
every `n ≥ 0` for which the result fits the return type: `fib_dp` and
`fib_tail` (`long long`) for all `n ≤ 92` and the `constexpr fibonacci`
(`int`) for all `n ≤ 46`; `F(93)` and `F(47)` are the first values that
overflow the respective types; and each returns `55` on input `10`. -/
theorem claim_c2_fibonacci_correct :
    (∀ n : Fin 93, DpDemo.fib_dp n.val = (Nat.fib n.val : Int)) ∧
    (∀ n : Fin 47, ConstexprDemo.fibonacci n.val = (Nat.fib n.val : Int)) ∧
    (∀ n : Fin 93, RecursionDemo.fib_tail n.val 0 1 = (Nat.fib n.val : Int)) ∧
    Nat.fib 92 < 2 ^ 63 ∧ 2 ^ 63 ≤ Nat.fib 93 ∧
    Nat.fib 46 < 2 ^ 31 ∧ 2 ^ 31 ≤ Nat.fib 47 ∧
    DpDemo.fib_dp 10 = 55 ∧ ConstexprDemo.fibonacci 10 = 55 ∧
    RecursionDemo.fib_tail 10 0 1 = 55 := by
  decide

/-- Claim C3, counterexample: the claim says each factorial implementation
returns `n!` for every `n ≥ 0`, but the `constexpr int factorial` of
`constexpr_demo.cpp` works on 32-bit `int`, and at `n = 13` the product
wraps around (`13! = 6227020800 ≥ 2^31`), so the returned value is not
`13!`. -/
theorem claim_c3_counterexample :
    ConstexprDemo.factorial 13 ≠ (Nat.factorial 13 : Int) := by
  decide

/-- Claim C3 (amended): each factorial implementation returns `n!` for every
`n ≥ 0` whose factorial fits the return type — `0 ≤ n ≤ 12` for the
`constexpr int factorial` of `constexpr_demo.cpp` and `0 ≤ n ≤ 20` for the
recursive `long long factorial` of `recursion_demo.cpp` (in particular
`factorial(0) = factorial(1) = 1`); both return `120` at `n = 5`, so the
in-source `static_assert(factorial(5) == 120)` is valid. -/
theorem claim_c3_factorial_correct :
    (∀ n : Fin 13, ConstexprDemo.factorial n.val = (Nat.factorial n.val : Int)) ∧
    (∀ n : Fin 21, RecursionDemo.factorial n.val = (Nat.factorial n.val : Int)) ∧
    ConstexprDemo.factorial 5 = 120 ∧ RecursionDemo.factorial 5 = 120 := by
  decide

/-- Claim C4 (confirmed): `validate_age(age)` throws `std::invalid_argument`
exactly when `age < 0` or `age > 150`, and returns normally for every
`age ∈ [0, 150]`; the function is pure, so it modifies no state in either
case. -/
theorem claim_c4_validate_age (age : Int) :
    (ErrorDemo.validate_age age = Except.ok () ↔ 0 ≤ age ∧ age ≤ 150) ∧
    ((∃ e, ErrorDemo.validate_age age = Except.error e) ↔ age < 0 ∨ 150 < age) := by
  unfold ErrorDemo.validate_age
  by_cases h0 : age < 0
  · rw [if_pos h0]
    constructor
    · constructor
      · intro h; simp at h
      · intro h; omega
    · constructor
      · intro _; exact Or.inl h0
      · intro _; exact ⟨_, rfl⟩
  · rw [if_neg h0]
    by_cases h1 : age > 150
    · rw [if_pos h1]
      constructor
      · constructor
        · intro h; simp at h
        · intro h; omega
      · constructor
        · intro _; exact Or.inr h1
        · intro _; exact ⟨_, rfl⟩
    · rw [if_neg h1]
      constructor
      · constructor
        · intro _; omega
        · intro _; rfl
      · constructor
        · rintro ⟨e, he⟩; simp at he
        · intro h; omega

/-- Claim C5 (confirmed): `find_index(v, target)` returns the smallest index
`i` with `v[i] == target` when `target` occurs in `v`, and `std::nullopt`
exactly when `target` does not occur in `v`. -/
theorem claim_c5_find_index (v : List Int) (target : Int) (i : Nat) :
    (ErrorDemo.find_index v target = none ↔ target ∉ v) ∧
    (ErrorDemo.find_index v target = some (i : Int) ↔
      i < v.length ∧ v.getD i 0 = target ∧
        ∀ j : Nat, j < i → v.getD j 0 ≠ target) := by
  constructor
  · exact ErrorDemo.findIndexFrom_none v target 0
  · rw [ErrorDemo.find_index, ErrorDemo.findIndexFrom_some v target 0 (i : Int)]
    constructor
    · rintro ⟨k, hk, hr, hget, hmin⟩
      have : k = i := by omega
      subst this
      exact ⟨hk, hget, hmin⟩
    · rintro ⟨hk, hget, hmin⟩
      exact ⟨i, hk, by omega, hget, hmin⟩

/-- Witness for C5 at a concrete input: in `[5, 3, 3]` the target `3` first
occurs at index `1`. -/
theorem claim_c5_witness :
    (ErrorDemo.find_index [5, 3, 3] 3 = none ↔ (3 : Int) ∉ [(5 : Int), 3, 3]) ∧
    (ErrorDemo.find_index [5, 3, 3] 3 = some ((1 : Nat) : Int) ↔
      1 < ([(5 : Int), 3, 3]).length ∧ ([(5 : Int), 3, 3]).getD 1 0 = 3 ∧
        ∀ j : Nat, j < 1 → ([(5 : Int), 3, 3]).getD j 0 ≠ 3) :=
  claim_c5_find_index [5, 3, 3] 3 1

/-- Claim C7 (confirmed): for every `n ≥ 1`, `hanoi(n, from, to, aux, moves)`
appends exactly `2^n - 1` move strings to `moves`; in particular the demo's
call with `n = 3` produces `7` moves. -/
theorem claim_c7_hanoi (n : Nat) (f t a : Char) (h : 1 ≤ n) :
    (RecursionDemo.hanoi n f t a).length = 2 ^ n - 1 ∧
    (RecursionDemo.hanoi 3 'A' 'C' 'B').length = 7 := by
  refine ⟨?_, by rfl⟩
  obtain ⟨m, rfl⟩ : ∃ m, n = m + 1 := ⟨n - 1, by omega⟩
  exact RecursionDemo.hanoi_succ_length m f t a

/-- Witness for C7 at the demo's concrete input `n = 3`. -/
theorem claim_c7_witness :
    1 ≤ 3 ∧ ((RecursionDemo.hanoi 3 'A' 'C' 'B').length = 2 ^ 3 - 1 ∧
      (RecursionDemo.hanoi 3 'A' 'C' 'B').length = 7) :=
  ⟨by decide, claim_c7_hanoi 3 'A' 'C' 'B' (by decide)⟩

/-! ### Wraparound arithmetic lemmas and the `unique_paths` invariant -/

theorem i32_add_left (a b : Int) : i32 (i32 a + b) = i32 (a + b) := by
  unfold i32; omega

theorem i32_add_right (a b : Int) : i32 (a + i32 b) = i32 (a + b) := by
  unfold i32; omega

theorem i32_eq_self {x : Int} (h1 : -(2 ^ 31) ≤ x) (h2 : x < 2 ^ 31) : i32 x = x := by
  unfold i32; omega

theorem DpDemo.upInner_pascal (i : Nat) :
    ∀ (cnt s : Nat),
      DpDemo.upInner (i32 ((i + 1 + s).choose s : Int))
          ((List.range' (s + 1) cnt).map fun j => i32 ((i + j).choose j : Int)) =
        (List.range' (s + 1) cnt).map fun j => i32 ((i + 1 + j).choose j : Int) := by
  intro cnt
  induction cnt with
  | zero => intro s; rfl
  | succ c ih =>
      intro s
      rw [List.range'_succ, List.map_cons, List.map_cons]
      show DpDemo.upInner _ (_ :: _) = _
      unfold DpDemo.upInner
      have hv : i32 (i32 ((i + (s + 1)).choose (s + 1) : Int) +
          i32 ((i + 1 + s).choose s : Int)) = i32 ((i + 1 + (s + 1)).choose (s + 1) : Int) := by
        rw [i32_add_left, i32_add_right]
        congr 1
        have hp : (i + s + 1 + 1).choose (s + 1) =
            (i + s + 1).choose s + (i + s + 1).choose (s + 1) :=
          Nat.choose_succ_succ' (i + s + 1) s
        have h1 : i + (s + 1) = i + s + 1 := by omega
        have h2 : i + 1 + s = i + s + 1 := by omega
        have h3 : i + 1 + (s + 1) = i + s + 1 + 1 := by omega
        rw [h1, h2, h3, hp]
        push_cast
        ring
      rw [hv]
      have := ih (s + 1)
      simpa using this

theorem DpDemo.upRow_pascal (i n : Nat) :
    DpDemo.upRow (DpDemo.pascalRow i n) = DpDemo.pascalRow (i + 1) n := by
  cases n with
  | zero => rfl
  | succ k =>
      unfold DpDemo.pascalRow
      rw [List.range'_succ, List.map_cons, List.map_cons]
      show DpDemo.upRow (_ :: _) = _
      unfold DpDemo.upRow
      have h0 : i32 ((i + 0).choose 0 : Int) = i32 ((i + 1 + 0).choose 0 : Int) := by
        rw [Nat.choose_zero_right, Nat.choose_zero_right]
      rw [h0]
      refine congrArg (List.cons _) ?_
      have := DpDemo.upInner_pascal i k 0
      simpa using this

theorem DpDemo.pascalRow_zero (n : Nat) :
    DpDemo.pascalRow 0 n = List.replicate n 1 := by
  unfold DpDemo.pascalRow
  have hmap : ∀ j ∈ List.range' 0 n, i32 ((0 + j).choose j : Int) = 1 := by
    intro j _
    rw [Nat.zero_add, Nat.choose_self]
    decide
  rw [List.map_congr_left hmap]
  rw [List.map_const']
  rw [List.length_range']

theorem DpDemo.iterate_pascal (n : Nat) :
    ∀ k : Nat, DpDemo.upRow^[k] (List.replicate n 1) = DpDemo.pascalRow k n := by
  intro k
  induction k with
  | zero => exact (DpDemo.pascalRow_zero n).symm
  | succ m ih => rw [Function.iterate_succ_apply', ih, DpDemo.upRow_pascal]

theorem DpDemo.unique_paths_eq (m n : Nat) (hm : 1 ≤ m) (hn : 1 ≤ n) :
    DpDemo.unique_paths m n = i32 ((m - 1 + (n - 1)).choose (n - 1) : Int) := by
  unfold DpDemo.unique_paths
  rw [DpDemo.iterate_pascal]
  unfold DpDemo.pascalRow
  have hlen : n - 1 < ((List.range' 0 n).map fun j => i32 ((m - 1 + j).choose j : Int)).length := by
    rw [List.length_map, List.length_range']
    omega
  rw [List.getD_eq_getElem?_getD, List.getElem?_eq_getElem hlen]
  rw [List.getElem_map]
  rw [Option.getD_some]
  rw [List.getElem_range' (n - 1)]
  have harg : 0 + 1 * (n - 1) = n - 1 := by omega
  rw [harg]

set_option maxRecDepth 10000 in
/-- Claim C10, counterexample: the claim says `unique_paths(m, n)` equals the
binomial coefficient `C(m+n-2, m-1)` for all `m, n ≥ 1`, but the function
computes on 32-bit `int`: at `m = n = 18` the value `C(34, 17) = 2333606220`
exceeds `2^31 - 1` and the accumulating row wraps around, so the returned
value differs from the binomial coefficient. -/
theorem claim_c10_counterexample :
    DpDemo.unique_paths 18 18 ≠ (Nat.choose 34 17 : Int) := by
  have h : Nat.choose 34 17 = 2333606220 := by
    rw [Nat.choose_eq_factorial_div_factorial (by norm_num)]
    decide
  rw [h]
  decide

/-- Claim C10 (amended): for all `m, n ≥ 1`, `unique_paths` is symmetric in
its two arguments, and the value it returns is the binomial coefficient
`C(m+n-2, m-1)` reduced by 32-bit two's-complement wraparound; in particular
it equals `C(m+n-2, m-1)` itself whenever that coefficient is below `2^31`
(fits in `int`). -/
theorem claim_c10_unique_paths (m n : Nat) (hm : 1 ≤ m) (hn : 1 ≤ n) :
    DpDemo.unique_paths m n = DpDemo.unique_paths n m ∧
    DpDemo.unique_paths m n = i32 ((m + n - 2).choose (m - 1) : Int) ∧
    (((m + n - 2).choose (m - 1) : Int) < 2 ^ 31 →
      DpDemo.unique_paths m n = ((m + n - 2).choose (m - 1) : Int)) := by
  have key : ∀ a b : Nat, 1 ≤ a → 1 ≤ b →
      DpDemo.unique_paths a b = i32 ((a + b - 2).choose (a - 1) : Int) := by
    intro a b ha hb
    rw [DpDemo.unique_paths_eq a b ha hb]
    congr 1
    have h1 : a - 1 + (b - 1) = a + b - 2 := by omega
    rw [h1]
    have h2 : (a + b - 2).choose (b - 1) = (a + b - 2).choose (a + b - 2 - (b - 1)) := by
      rw [Nat.choose_symm (by omega)]
    have h3 : a + b - 2 - (b - 1) = a - 1 := by omega
    rw [h2, h3]
  have hmn := key m n hm hn
  have hnm := key n m hn hm
  refine ⟨?_, hmn, ?_⟩
  · rw [hmn, hnm]
    have h4 : n + m - 2 = m + n - 2 := by omega
    rw [h4]
    congr 1
    have h5 : (m + n - 2).choose (n - 1) = (m + n - 2).choose (m + n - 2 - (n - 1)) := by
      rw [Nat.choose_symm (by omega)]
    have h6 : m + n - 2 - (n - 1) = m - 1 := by omega
    rw [h5, h6]
  · intro hfit
    rw [hmn]
    exact i32_eq_self (le_trans (by norm_num) (Int.natCast_nonneg _)) hfit

/-- Witness for C10 at the concrete input `m = 3, n = 7`:
`unique_paths 3 7 = C(8, 2) = 28`. -/
theorem claim_c10_witness :
    (1 ≤ 3 ∧ 1 ≤ 7) ∧
      (DpDemo.unique_paths 3 7 = DpDemo.unique_paths 7 3 ∧
       DpDemo.unique_paths 3 7 = i32 ((3 + 7 - 2).choose (3 - 1) : Int) ∧
       (((3 + 7 - 2).choose (3 - 1) : Int) < 2 ^ 31 →
         DpDemo.unique_paths 3 7 = ((3 + 7 - 2).choose (3 - 1) : Int))) :=
  ⟨⟨by decide, by decide⟩, claim_c10_unique_paths 3 7 (by decide) (by decide)⟩

/-- Claim C8 (confirmed, over a file-system trace model): starting from any
file system, a complete run of `raii_demo`'s `main` leaves `raii_test.txt`
nonexistent and every other file untouched; during `demo_file_handle` the
file holds exactly the two written lines, and the read loop returns exactly
those two lines. -/
theorem claim_c8_raii (fs : RaiiDemo.FS) :
    RaiiDemo.raiiMain fs "raii_test.txt" = none ∧
    (∀ f : String, f ≠ "raii_test.txt" → RaiiDemo.raiiMain fs f = fs f) ∧
    RaiiDemo.demo_file_handle fs "raii_test.txt" =
      some "Hello, RAII!\nThis is a test.\n" ∧
    RaiiDemo.readLines "Hello, RAII!\nThis is a test.\n" =
      ["Hello, RAII!\n", "This is a test.\n"] := by
  have hcontent : RaiiDemo.demo_file_handle fs "raii_test.txt" =
      some "Hello, RAII!\nThis is a test.\n" := by
    unfold RaiiDemo.demo_file_handle RaiiDemo.writeFile RaiiDemo.fopenW
    simp
  refine ⟨?_, ?_, hcontent, by decide⟩
  · unfold RaiiDemo.raiiMain RaiiDemo.removeFile
    simp
  · intro f hf
    unfold RaiiDemo.raiiMain RaiiDemo.removeFile RaiiDemo.demo_file_handle
      RaiiDemo.writeFile RaiiDemo.fopenW
    simp [hf]

/-- Witness for C8 at the concrete initial file system with no files. -/
theorem claim_c8_witness :
    RaiiDemo.raiiMain (fun _ => none) "raii_test.txt" = none ∧
    (∀ f : String, f ≠ "raii_test.txt" →
      RaiiDemo.raiiMain (fun _ => none) f = (fun _ => (none : Option String)) f) ∧
    RaiiDemo.demo_file_handle (fun _ => none) "raii_test.txt" =
      some "Hello, RAII!\nThis is a test.\n" ∧
    RaiiDemo.readLines "Hello, RAII!\nThis is a test.\n" =
      ["Hello, RAII!\n", "This is a test.\n"] :=
  claim_c8_raii (fun _ => none)

/-! ### Generic `getD` helpers and the `coin_change` invariant -/

theorem getD_append_left {α : Type} (l l' : List α) (d : α) (j : Nat)
    (h : j < l.length) : (l ++ l').getD j d = l.getD j d := by
  rw [List.getD_eq_getElem?_getD, List.getD_eq_getElem?_getD,
    List.getElem?_append_left h]

theorem getD_concat_self {α : Type} (l : List α) (d x : α) :
    (l ++ [x]).getD l.length d = x := by
  rw [List.getD_eq_getElem?_getD, List.getElem?_append_right (Nat.le_refl _)]
  simp

theorem getD_concat_of_len {α : Type} (l : List α) (d x : α) (m : Nat)
    (h : l.length = m) : (l ++ [x]).getD m d = x := by
  subst h
  exact getD_concat_self l d x

theorem sum_ge_length (l : List Int) (h : ∀ c ∈ l, 1 ≤ c) :
    (l.length : Int) ≤ l.sum := by
  induction l with
  | nil => simp
  | cons x xs ih =>
      have hx := h x (by simp)
      have hxs := ih fun c hc => h c (by simp [hc])
      simp only [List.length_cons, List.sum_cons]
      push_cast
      omega

theorem DpDemo.coinFold_le_init (dp : List Int) (amount i : Nat) :
    ∀ (cs : List Int) (cur : Int), DpDemo.coinFold dp amount i cs cur ≤ cur := by
  intro cs
  induction cs with
  | nil => intro cur; exact le_refl cur
  | cons c cs ih =>
      intro cur
      simp only [DpDemo.coinFold]
      refine le_trans (ih _) ?_
      split
      · exact min_le_left _ _
      · exact le_refl cur

theorem DpDemo.coinFold_le_val (dp : List Int) (amount i : Nat) :
    ∀ (cs : List Int) (cur : Int) (coin : Int), coin ∈ cs →
      coin ≤ (i : Int) → dp.getD ((i : Int) - coin).toNat 0 ≠ (amount : Int) + 1 →
      DpDemo.coinFold dp amount i cs cur ≤ dp.getD ((i : Int) - coin).toNat 0 + 1 := by
  intro cs
  induction cs with
  | nil => intro cur coin h; simp at h
  | cons c cs ih =>
      intro cur coin hmem hle hne
      rcases List.mem_cons.mp hmem with rfl | hmem2
      · simp only [DpDemo.coinFold]
        refine le_trans (DpDemo.coinFold_le_init dp amount i cs _) ?_
        rw [if_pos ⟨hle, hne⟩]
        exact min_le_right _ _
      · simp only [DpDemo.coinFold]
        exact ih _ coin hmem2 hle hne

theorem DpDemo.coinFold_cases (dp : List Int) (amount i : Nat) :
    ∀ (cs : List Int) (cur : Int),
      DpDemo.coinFold dp amount i cs cur = cur ∨
      ∃ coin, coin ∈ cs ∧ coin ≤ (i : Int) ∧
        dp.getD ((i : Int) - coin).toNat 0 ≠ (amount : Int) + 1 ∧
        DpDemo.coinFold dp amount i cs cur = dp.getD ((i : Int) - coin).toNat 0 + 1 := by
  intro cs
  induction cs with
  | nil => intro cur; exact Or.inl rfl
  | cons c cs ih =>
      intro cur
      simp only [DpDemo.coinFold]
      by_cases hg : c ≤ (i : Int) ∧ dp.getD ((i : Int) - c).toNat 0 ≠ (amount : Int) + 1
      · rw [if_pos hg]
        rcases ih (min cur (dp.getD ((i : Int) - c).toNat 0 + 1)) with h | ⟨coin, hm, h1, h2, h3⟩
        · rcases le_total cur (dp.getD ((i : Int) - c).toNat 0 + 1) with hmin | hmin
          · left
            rw [h, min_eq_left hmin]
          · right
            exact ⟨c, by simp, hg.1, hg.2, by rw [h, min_eq_right hmin]⟩
        · right
          exact ⟨coin, by simp [hm], h1, h2, h3⟩
      · rw [if_neg hg]
        rcases ih cur with h | ⟨coin, hm, h1, h2, h3⟩
        · exact Or.inl h
        · right
          exact ⟨coin, by simp [hm], h1, h2, h3⟩

theorem DpDemo.coinStep_val (coins : List Int) (amount : Nat)
    (hpos : ∀ c ∈ coins, 1 ≤ c) (dp : List Int) (i : Nat)
    (hi1 : 1 ≤ i) (hia : i ≤ amount)
    (hinv : ∀ j : Nat, j < i → DpDemo.CoinVal coins amount j (dp.getD j 0)) :
    DpDemo.CoinVal coins amount i
      (DpDemo.coinFold dp amount i coins ((amount : Int) + 1)) := by
  have hLB : ∀ k : Nat, DpDemo.CanMake coins k (i : Int) →
      DpDemo.coinFold dp amount i coins ((amount : Int) + 1) ≤ (k : Int) ∧
      DpDemo.coinFold dp amount i coins ((amount : Int) + 1) ≤ (i : Int) := by
    rintro k ⟨l, hmem, hlenl, hsum⟩
    rcases l with _ | ⟨c, l2⟩
    · exfalso
      simp only [List.sum_nil] at hsum
      omega
    · have hc : c ∈ coins := hmem c (List.mem_cons_self c l2)
      have hc1 : 1 ≤ c := hpos c hc
      have hl2 : ∀ x ∈ l2, x ∈ coins := fun x hx => hmem x (List.mem_cons_of_mem c hx)
      have hsum2 : c + l2.sum = (i : Int) := by simpa using hsum
      have hsumlen := sum_ge_length l2 fun x hx => hpos x (hl2 x hx)
      have hcle : c ≤ (i : Int) := by omega
      have hjlt : ((i : Int) - c).toNat < i := by omega
      have hjcast : ((((i : Int) - c).toNat : Nat) : Int) = (i : Int) - c := by omega
      have hCMj : DpDemo.CanMake coins l2.length (((((i : Int) - c).toNat : Nat)) : Int) :=
        ⟨l2, hl2, rfl, by omega⟩
      rcases hinv _ hjlt with ⟨hvs, hnone⟩ | ⟨hv0, hvle, hCM, hmin⟩
      · exact absurd hCMj (hnone l2.length)
      · have hne : dp.getD ((i : Int) - c).toNat 0 ≠ (amount : Int) + 1 := by omega
        have hles := DpDemo.coinFold_le_val dp amount i coins ((amount : Int) + 1) c hc hcle hne
        have hmk := hmin l2.length hCMj
        have hklen : l2.length + 1 = k := by simpa using hlenl
        constructor
        · have : ((l2.length : Int)) + 1 ≤ (k : Int) := by
            rw [← hklen]; push_cast; omega
          omega
        · omega
  rcases DpDemo.coinFold_cases dp amount i coins ((amount : Int) + 1) with
    hcase | ⟨coin, hcm, hcle, hcne, hcval⟩
  · left
    refine ⟨hcase, ?_⟩
    intro k hk
    have := (hLB k hk).2
    omega
  · have hc1 : 1 ≤ coin := hpos coin hcm
    have hjlt : ((i : Int) - coin).toNat < i := by omega
    have hjcast : ((((i : Int) - coin).toNat : Nat) : Int) = (i : Int) - coin := by omega
    rcases hinv _ hjlt with ⟨hvs, _⟩ | ⟨hv0, hvle, ⟨l, hml, hll, hsl⟩, _⟩
    · exact absurd hvs hcne
    · right
      refine ⟨by omega, by omega, ?_, fun k hk => (hLB k hk).1⟩
      refine ⟨coin :: l, ?_, ?_, ?_⟩
      · intro x hx
        rcases List.mem_cons.mp hx with rfl | hx2
        · exact hcm
        · exact hml x hx2
      · simp only [List.length_cons, hll]
        omega
      · simp only [List.sum_cons, hsl]
        omega

theorem DpDemo.coinDp_length (coins : List Int) (amount : Nat) :
    ∀ t : Nat, (DpDemo.coinDp coins amount t).length = t + 1 := by
  intro t
  induction t with
  | zero => rfl
  | succ t ih => simp [DpDemo.coinDp, List.length_append, ih]

theorem DpDemo.coinDp_spec (coins : List Int) (amount : Nat)
    (hpos : ∀ c ∈ coins, 1 ≤ c) :
    ∀ t : Nat, t ≤ amount → ∀ j : Nat, j ≤ t →
      DpDemo.CoinVal coins amount j ((DpDemo.coinDp coins amount t).getD j 0) := by
  intro t
  induction t with
  | zero =>
      intro _ j hj
      obtain rfl : j = 0 := by omega
      show DpDemo.CoinVal coins amount 0 ((0 : Int))
      right
      refine ⟨le_refl 0, by simp, ⟨[], by simp, rfl, by simp⟩, ?_⟩
      intro k _
      exact Int.natCast_nonneg k
  | succ t ih =>
      intro hta j hj
      show DpDemo.CoinVal coins amount j
        ((DpDemo.coinDp coins amount t ++
          [DpDemo.coinFold (DpDemo.coinDp coins amount t) amount (t + 1) coins
            ((amount : Int) + 1)]).getD j 0)
      rcases Nat.lt_or_ge j (t + 1) with hlt | hge
      · rw [getD_append_left _ _ _ _ (by rw [DpDemo.coinDp_length]; omega)]
        exact ih (by omega) j (by omega)
      · obtain rfl : j = t + 1 := by omega
        rw [getD_concat_of_len _ _ _ _ (DpDemo.coinDp_length coins amount t)]
        exact DpDemo.coinStep_val coins amount hpos _ (t + 1) (by omega) (by omega)
          fun j2 hj2 => ih (by omega) j2 (by omega)

theorem DpDemo.coin_change_zero (coins : List Int) :
    DpDemo.coin_change coins 0 = 0 := rfl

/-- Claim C9 (confirmed): for every list of strictly positive coin
denominations and every amount `≥ 0`, `coin_change(coins, amount)` returns
the minimum number of coins (with repetition) summing to `amount`, and `-1`
exactly when no multiset of the given coins sums to `amount`; in particular
`coin_change(coins, 0) = 0`. -/
theorem claim_c9_coin_change (coins : List Int) (amount : Nat)
    (hpos : ∀ c ∈ coins, 1 ≤ c) :
    ((∃ k : Nat, DpDemo.CanMake coins k (amount : Int)) →
      DpDemo.CanMake coins (DpDemo.coin_change coins amount).toNat (amount : Int) ∧
      ∀ k : Nat, DpDemo.CanMake coins k (amount : Int) →
        DpDemo.coin_change coins amount ≤ (k : Int)) ∧
    (DpDemo.coin_change coins amount = -1 ↔
      ¬ ∃ k : Nat, DpDemo.CanMake coins k (amount : Int)) ∧
    DpDemo.coin_change coins 0 = 0 := by
  have hval := DpDemo.coinDp_spec coins amount hpos amount (le_refl amount)
    amount (le_refl amount)
  have hcc : DpDemo.coin_change coins amount =
      if (amount : Int) < (DpDemo.coinDp coins amount amount).getD amount 0 then -1
      else (DpDemo.coinDp coins amount amount).getD amount 0 := rfl
  rcases hval with ⟨hvs, hnone⟩ | ⟨hv0, hvle, hCM, hmin⟩
  · rw [if_pos (by omega)] at hcc
    refine ⟨?_, ?_, DpDemo.coin_change_zero coins⟩
    · rintro ⟨k, hk⟩
      exact absurd hk (hnone k)
    · rw [hcc]
      constructor
      · rintro _ ⟨k, hk⟩
        exact hnone k hk
      · intro _
        rfl
  · rw [if_neg (by omega)] at hcc
    refine ⟨?_, ?_, DpDemo.coin_change_zero coins⟩
    · intro _
      rw [hcc]
      exact ⟨hCM, hmin⟩
    · rw [hcc]
      constructor
      · intro h
        exact absurd h (by omega)
      · intro h
        exact absurd ⟨_, hCM⟩ h

/-- Witness for C9 at the concrete input `coins = [1, 2, 5]`, `amount = 11`. -/
theorem claim_c9_witness :
    (∀ c ∈ ([1, 2, 5] : List Int), 1 ≤ c) ∧
    (((∃ k : Nat, DpDemo.CanMake [1, 2, 5] k ((11 : Nat) : Int)) →
        DpDemo.CanMake [1, 2, 5] (DpDemo.coin_change [1, 2, 5] 11).toNat ((11 : Nat) : Int) ∧
        ∀ k : Nat, DpDemo.CanMake [1, 2, 5] k ((11 : Nat) : Int) →
          DpDemo.coin_change [1, 2, 5] 11 ≤ (k : Int)) ∧
      (DpDemo.coin_change [1, 2, 5] 11 = -1 ↔
        ¬ ∃ k : Nat, DpDemo.CanMake [1, 2, 5] k ((11 : Nat) : Int)) ∧
      DpDemo.coin_change [1, 2, 5] 0 = 0) :=
  ⟨by decide, claim_c9_coin_change [1, 2, 5] 11 (by decide)⟩

/-! ### Array-access and swap lemmas for the quicksort proof -/

theorem getD_set_self {α : Type} (l : List α) (a : Nat) (d x : α)
    (h : a < l.length) : (l.set a x).getD a d = x := by
  rw [List.getD_eq_getElem?_getD, List.getElem?_set_self h]
  rfl

theorem getD_set_ne {α : Type} (l : List α) (a b : Nat) (d x : α)
    (h : a ≠ b) : (l.set a x).getD b d = l.getD b d := by
  rw [List.getD_eq_getElem?_getD, List.getElem?_set_ne h, ← List.getD_eq_getElem?_getD]

theorem cons_set_perm :
    ∀ (xs : List Int) (m : Nat) (x : Int), m < xs.length →
      List.Perm (xs.getD m 0 :: xs.set m x) (x :: xs) := by
  intro xs
  induction xs with
  | nil => intro m x h; simp at h
  | cons y ys ih =>
      intro m x h
      cases m with
      | zero =>
          simp only [List.getD_cons_zero, List.set_cons_zero]
          exact List.Perm.swap x y ys
      | succ m =>
          simp only [List.getD_cons_succ, List.set_cons_succ]
          have h1 : List.Perm (ys.getD m 0 :: y :: ys.set m x)
              (y :: ys.getD m 0 :: ys.set m x) :=
            List.Perm.swap y (ys.getD m 0) (ys.set m x)
          have h2 := (ih m x (by simpa using h)).cons y
          have h3 : List.Perm (y :: x :: ys) (x :: y :: ys) := List.Perm.swap x y ys
          exact h1.trans (h2.trans h3)

theorem set_set_perm :
    ∀ (l : List Int) (a b : Nat), a < l.length → b < l.length →
      List.Perm ((l.set a (l.getD b 0)).set b (l.getD a 0)) l := by
  intro l
  induction l with
  | nil => intro a b ha _; simp at ha
  | cons y ys ih =>
      intro a b ha hb
      cases a with
      | zero =>
          cases b with
          | zero => simp
          | succ m =>
              simp only [List.getD_cons_zero, List.getD_cons_succ, List.set_cons_zero,
                List.set_cons_succ]
              exact cons_set_perm ys m y (by simpa using hb)
      | succ m =>
          cases b with
          | zero =>
              simp only [List.getD_cons_zero, List.getD_cons_succ, List.set_cons_zero,
                List.set_cons_succ]
              exact cons_set_perm ys m y (by simpa using ha)
          | succ k =>
              simp only [List.getD_cons_succ, List.set_cons_succ]
              exact (ih m k (by simpa using ha) (by simpa using hb)).cons y

theorem SortDemo.swapi_length (arr : List Int) (i j : Int) :
    (SortDemo.swapi arr i j).length = arr.length := by
  simp [SortDemo.swapi]

theorem SortDemo.swapi_perm (arr : List Int) (i j : Int)
    (hi0 : 0 ≤ i) (hil : i < (arr.length : Int))
    (hj0 : 0 ≤ j) (hjl : j < (arr.length : Int)) :
    List.Perm (SortDemo.swapi arr i j) arr := by
  unfold SortDemo.swapi SortDemo.geti
  exact set_set_perm arr i.toNat j.toNat (by omega) (by omega)

theorem SortDemo.geti_swapi_left (arr : List Int) (i j : Int)
    (hi0 : 0 ≤ i) (hil : i < (arr.length : Int))
    (hj0 : 0 ≤ j) (hjl : j < (arr.length : Int)) :
    SortDemo.geti (SortDemo.swapi arr i j) i = SortDemo.geti arr j := by
  unfold SortDemo.swapi SortDemo.geti
  by_cases hab : j.toNat = i.toNat
  · rw [hab, List.set_set, getD_set_self _ _ _ _ (by omega)]
  · rw [getD_set_ne _ _ _ _ _ hab, getD_set_self _ _ _ _ (by omega)]

theorem SortDemo.geti_swapi_right (arr : List Int) (i j : Int)
    (hj0 : 0 ≤ j) (hjl : j < (arr.length : Int)) :
    SortDemo.geti (SortDemo.swapi arr i j) j = SortDemo.geti arr i := by
  unfold SortDemo.swapi SortDemo.geti
  rw [getD_set_self _ _ _ _ (by simp; omega)]

theorem SortDemo.geti_swapi_ne (arr : List Int) (i j k : Int)
    (hi0 : 0 ≤ i) (hj0 : 0 ≤ j) (hk0 : 0 ≤ k) (hki : k ≠ i) (hkj : k ≠ j) :
    SortDemo.geti (SortDemo.swapi arr i j) k = SortDemo.geti arr k := by
  unfold SortDemo.swapi SortDemo.geti
  rw [getD_set_ne _ _ _ _ _ (by omega), getD_set_ne _ _ _ _ _ (by omega)]

/-! ### The Lomuto partition invariant -/

theorem SortDemo.partitionLoop_spec (pivot high : Int) :
    ∀ (fuel : Nat) (arr : List Int) (i j low : Int),
      (high - j).toNat ≤ fuel →
      0 ≤ low → low - 1 ≤ i → i < j → low ≤ j → j ≤ high →
      high < (arr.length : Int) →
      (∀ k : Int, low ≤ k → k ≤ i → SortDemo.geti arr k < pivot) →
      (∀ k : Int, i < k → k < j → pivot ≤ SortDemo.geti arr k) →
      ((SortDemo.partitionLoop pivot high arr i j).1.length = arr.length ∧
       List.Perm (SortDemo.partitionLoop pivot high arr i j).1 arr ∧
       i ≤ (SortDemo.partitionLoop pivot high arr i j).2 ∧
       (SortDemo.partitionLoop pivot high arr i j).2 < high ∧
       (∀ k : Int, 0 ≤ k → (k ≤ i ∨ high ≤ k) →
         SortDemo.geti (SortDemo.partitionLoop pivot high arr i j).1 k =
           SortDemo.geti arr k) ∧
       (∀ k : Int, low ≤ k → k ≤ (SortDemo.partitionLoop pivot high arr i j).2 →
         SortDemo.geti (SortDemo.partitionLoop pivot high arr i j).1 k < pivot) ∧
       (∀ k : Int, (SortDemo.partitionLoop pivot high arr i j).2 < k → k < high →
         pivot ≤ SortDemo.geti (SortDemo.partitionLoop pivot high arr i j).1 k) ∧
       (∀ k : Int, low ≤ k → k < high →
         ∃ m : Int, low ≤ m ∧ m < high ∧
           SortDemo.geti (SortDemo.partitionLoop pivot high arr i j).1 k =
             SortDemo.geti arr m)) := by
  intro fuel
  induction fuel with
  | zero =>
      intro arr i j low hf h0 hli hij hlj hjh hh hlt hge
      rw [SortDemo.partitionLoop, dif_neg (show ¬ j < high by omega)]
      refine ⟨rfl, List.Perm.refl arr, le_refl i, by omega, fun k _ _ => rfl, ?_, ?_, ?_⟩
      · intro k hk1 hk2
        exact hlt k hk1 hk2
      · intro k hk1 hk2
        exact hge k hk1 (by omega)
      · intro k hk1 hk2
        exact ⟨k, hk1, hk2, rfl⟩
  | succ m ih =>
      intro arr i j low hf h0 hli hij hlj hjh hh hlt hge
      rw [SortDemo.partitionLoop]
      by_cases hjlt : j < high
      · rw [dif_pos hjlt]
        by_cases hx : SortDemo.geti arr j < pivot
        · rw [if_pos hx]
          have hi10 : 0 ≤ i + 1 := by omega
          have hi1l : i + 1 < (arr.length : Int) := by omega
          have hj0 : 0 ≤ j := by omega
          have hjl : j < (arr.length : Int) := by omega
          have hlen2 : (SortDemo.swapi arr (i + 1) j).length = arr.length :=
            SortDemo.swapi_length arr (i + 1) j
          have hperm2 := SortDemo.swapi_perm arr (i + 1) j hi10 hi1l hj0 hjl
          have hA : SortDemo.geti (SortDemo.swapi arr (i + 1) j) (i + 1) =
              SortDemo.geti arr j :=
            SortDemo.geti_swapi_left arr (i + 1) j hi10 hi1l hj0 hjl
          have hB : SortDemo.geti (SortDemo.swapi arr (i + 1) j) j =
              SortDemo.geti arr (i + 1) :=
            SortDemo.geti_swapi_right arr (i + 1) j hj0 hjl
          have hC : ∀ k : Int, 0 ≤ k → k ≠ i + 1 → k ≠ j →
              SortDemo.geti (SortDemo.swapi arr (i + 1) j) k = SortDemo.geti arr k :=
            fun k hk0 hki hkj =>
              SortDemo.geti_swapi_ne arr (i + 1) j k hi10 hj0 hk0 hki hkj
          have hlt2 : ∀ k : Int, low ≤ k → k ≤ i + 1 →
              SortDemo.geti (SortDemo.swapi arr (i + 1) j) k < pivot := by
            intro k hk1 hk2
            by_cases hk3 : k = i + 1
            · rw [hk3, hA]
              exact hx
            · rw [hC k (by omega) hk3 (by omega)]
              exact hlt k hk1 (by omega)
          have hge2 : ∀ k : Int, i + 1 < k → k < j + 1 →
              pivot ≤ SortDemo.geti (SortDemo.swapi arr (i + 1) j) k := by
            intro k hk1 hk2
            by_cases hkj : k = j
            · rw [hkj, hB]
              exact hge (i + 1) (by omega) (by omega)
            · rw [hC k (by omega) (by omega) hkj]
              exact hge k (by omega) (by omega)
          obtain ⟨Rlen, Rperm, Rle, Rlt, Runt, Rsmall, Rbig, Rtr⟩ :=
            ih (SortDemo.swapi arr (i + 1) j) (i + 1) (j + 1) low (by omega) h0
              (by omega) (by omega) (by omega) (by omega) (by rw [hlen2]; omega) hlt2 hge2
          refine ⟨Rlen.trans hlen2, Rperm.trans hperm2, by omega, Rlt, ?_, Rsmall, Rbig, ?_⟩
          · intro k hk0 hk1
            rw [Runt k hk0 (by omega)]
            exact hC k hk0 (by omega) (by omega)
          · intro k hk1 hk2
            obtain ⟨m2, hm1, hm2, hmv⟩ := Rtr k hk1 hk2
            by_cases hmi : m2 = i + 1
            · exact ⟨j, by omega, by omega, by rw [hmv, hmi, hA]⟩
            · by_cases hmj : m2 = j
              · exact ⟨i + 1, by omega, by omega, by rw [hmv, hmj, hB]⟩
              · exact ⟨m2, hm1, hm2, by rw [hmv, hC m2 (by omega) hmi hmj]⟩
        · rw [if_neg hx]
          have hge2 : ∀ k : Int, i < k → k < j + 1 → pivot ≤ SortDemo.geti arr k := by
            intro k hk1 hk2
            by_cases hkj : k = j
            · rw [hkj]
              exact le_of_not_lt hx
            · exact hge k hk1 (by omega)
          exact ih arr i (j + 1) low (by omega) h0 hli (by omega) (by omega) (by omega)
            hh hlt hge2
      · rw [dif_neg hjlt]
        refine ⟨rfl, List.Perm.refl arr, le_refl i, by omega, fun k _ _ => rfl, ?_, ?_, ?_⟩
        · intro k hk1 hk2
          exact hlt k hk1 hk2
        · intro k hk1 hk2
          exact hge k hk1 (by omega)
        · intro k hk1 hk2
          exact ⟨k, hk1, hk2, rfl⟩

theorem SortDemo.partition_spec (arr : List Int) (low high : Int)
    (h0 : 0 ≤ low) (hlh : low < high) (hh : high < (arr.length : Int)) :
    (SortDemo.partitionFn arr low high).1.length = arr.length ∧
    List.Perm (SortDemo.partitionFn arr low high).1 arr ∧
    low ≤ (SortDemo.partitionFn arr low high).2 ∧
    (SortDemo.partitionFn arr low high).2 ≤ high ∧
    (∀ k : Int, 0 ≤ k → (k < low ∨ high < k) →
      SortDemo.geti (SortDemo.partitionFn arr low high).1 k = SortDemo.geti arr k) ∧
    (∀ k : Int, low ≤ k → k ≤ high →
      ∃ m : Int, low ≤ m ∧ m ≤ high ∧
        SortDemo.geti (SortDemo.partitionFn arr low high).1 k = SortDemo.geti arr m) ∧
    (∀ k : Int, low ≤ k → k < (SortDemo.partitionFn arr low high).2 →
      SortDemo.geti (SortDemo.partitionFn arr low high).1 k <
        SortDemo.geti (SortDemo.partitionFn arr low high).1
          (SortDemo.partitionFn arr low high).2) ∧
    (∀ k : Int, (SortDemo.partitionFn arr low high).2 < k → k ≤ high →
      SortDemo.geti (SortDemo.partitionFn arr low high).1
          (SortDemo.partitionFn arr low high).2 ≤
        SortDemo.geti (SortDemo.partitionFn arr low high).1 k) := by
  obtain ⟨Llen, Lperm, Lle, Llt, Lunt, Lsmall, Lbig, Ltr⟩ :=
    SortDemo.partitionLoop_spec (SortDemo.geti arr high) high (high - low).toNat arr
      (low - 1) low low (le_refl _) h0 (le_refl _) (by omega) (le_refl _) (by omega) hh
      (by intro k hk1 hk2; exact absurd hk1 (by omega))
      (by intro k hk1 hk2; exact absurd hk1 (by omega))
  set L := SortDemo.partitionLoop (SortDemo.geti arr high) high arr (low - 1) low
    with hLdef
  have hp0 : 0 ≤ L.2 + 1 := by omega
  have hpl : L.2 + 1 < (L.1.length : Int) := by rw [Llen]; omega
  have hh0 : 0 ≤ high := by omega
  have hhl : high < (L.1.length : Int) := by rw [Llen]; omega
  have hA : SortDemo.geti (SortDemo.swapi L.1 (L.2 + 1) high) (L.2 + 1) =
      SortDemo.geti L.1 high :=
    SortDemo.geti_swapi_left L.1 (L.2 + 1) high hp0 hpl hh0 hhl
  have hApiv : SortDemo.geti L.1 high = SortDemo.geti arr high :=
    Lunt high hh0 (Or.inr (le_refl high))
  have hB : SortDemo.geti (SortDemo.swapi L.1 (L.2 + 1) high) high =
      SortDemo.geti L.1 (L.2 + 1) :=
    SortDemo.geti_swapi_right L.1 (L.2 + 1) high hh0 hhl
  have hC : ∀ k : Int, 0 ≤ k → k ≠ L.2 + 1 → k ≠ high →
      SortDemo.geti (SortDemo.swapi L.1 (L.2 + 1) high) k = SortDemo.geti L.1 k :=
    fun k hk0 hki hkj => SortDemo.geti_swapi_ne L.1 (L.2 + 1) high k hp0 hh0 hk0 hki hkj
  refine ⟨?_, ?_, ?_, ?_, ?_, ?_, ?_, ?_⟩
  · show (SortDemo.swapi L.1 (L.2 + 1) high).length = arr.length
    rw [SortDemo.swapi_length]
    exact Llen
  · show List.Perm (SortDemo.swapi L.1 (L.2 + 1) high) arr
    exact (SortDemo.swapi_perm L.1 (L.2 + 1) high hp0 hpl hh0 hhl).trans Lperm
  · show low ≤ L.2 + 1
    omega
  · show L.2 + 1 ≤ high
    omega
  · show ∀ k : Int, 0 ≤ k → (k < low ∨ high < k) →
      SortDemo.geti (SortDemo.swapi L.1 (L.2 + 1) high) k = SortDemo.geti arr k
    intro k hk0 hk1
    rw [hC k hk0 (by omega) (by omega)]
    exact Lunt k hk0 (by omega)
  · show ∀ k : Int, low ≤ k → k ≤ high →
      ∃ m : Int, low ≤ m ∧ m ≤ high ∧
        SortDemo.geti (SortDemo.swapi L.1 (L.2 + 1) high) k = SortDemo.geti arr m
    intro k hk1 hk2
    by_cases hkp : k = L.2 + 1
    · refine ⟨high, by omega, le_refl high, ?_⟩
      rw [hkp, hA, hApiv]
    · by_cases hkh : k = high
      · obtain ⟨m2, hm1, hm2, hmv⟩ := Ltr (L.2 + 1) (by omega) (by omega)
        refine ⟨m2, hm1, by omega, ?_⟩
        rw [hkh, hB, hmv]
      · obtain ⟨m2, hm1, hm2, hmv⟩ := Ltr k hk1 (by omega)
        refine ⟨m2, hm1, by omega, ?_⟩
        rw [hC k (by omega) hkp hkh, hmv]
  · show ∀ k : Int, low ≤ k → k < L.2 + 1 →
      SortDemo.geti (SortDemo.swapi L.1 (L.2 + 1) high) k <
        SortDemo.geti (SortDemo.swapi L.1 (L.2 + 1) high) (L.2 + 1)
    intro k hk1 hk2
    rw [hA, hApiv, hC k (by omega) (by omega) (by omega)]
    exact Lsmall k hk1 (by omega)
  · show ∀ k : Int, L.2 + 1 < k → k ≤ high →
      SortDemo.geti (SortDemo.swapi L.1 (L.2 + 1) high) (L.2 + 1) ≤
        SortDemo.geti (SortDemo.swapi L.1 (L.2 + 1) high) k
    intro k hk1 hk2
    rw [hA, hApiv]
    by_cases hkh : k = high
    · rw [hkh, hB]
      exact Lbig (L.2 + 1) (by omega) (by omega)
    · rw [hC k (by omega) (by omega) hkh]
      exact Lbig k (by omega) (by omega)

theorem SortDemo.quickSortImpl_spec :
    ∀ (fuel : Nat) (arr : List Int) (low high : Int),
      (high + 1 - low).toNat ≤ fuel →
      0 ≤ low → high < (arr.length : Int) →
      ((SortDemo.quickSortImpl arr low high).length = arr.length ∧
       List.Perm (SortDemo.quickSortImpl arr low high) arr ∧
       (∀ k : Int, 0 ≤ k → (k < low ∨ high < k) →
         SortDemo.geti (SortDemo.quickSortImpl arr low high) k = SortDemo.geti arr k) ∧
       (∀ k : Int, low ≤ k → k ≤ high →
         ∃ m : Int, low ≤ m ∧ m ≤ high ∧
           SortDemo.geti (SortDemo.quickSortImpl arr low high) k =
             SortDemo.geti arr m) ∧
       (∀ k l : Int, low ≤ k → k ≤ l → l ≤ high →
         SortDemo.geti (SortDemo.quickSortImpl arr low high) k ≤
           SortDemo.geti (SortDemo.quickSortImpl arr low high) l)) := by
  intro fuel
  induction fuel with
  | zero =>
      intro arr low high hf h0 hh
      rw [SortDemo.quickSortImpl, dif_neg (show ¬ low < high by omega)]
      refine ⟨rfl, List.Perm.refl arr, fun k _ _ => rfl, ?_, ?_⟩
      · intro k hk1 hk2
        exact ⟨k, hk1, hk2, rfl⟩
      · intro k l hk hkl hl
        obtain rfl : k = l := by omega
        exact le_refl _
  | succ m ih =>
      intro arr low high hf h0 hh
      rw [SortDemo.quickSortImpl]
      by_cases hlh : low < high
      · rw [dif_pos hlh]
        obtain ⟨Plen, Pperm, Plow, Phigh, Punt, Ptr, Pleft, Pright⟩ :=
          SortDemo.partition_spec arr low high h0 hlh hh
        set p := (SortDemo.partitionFn arr low high).2 with hpdef
        set P1 := (SortDemo.partitionFn arr low high).1 with hP1def
        have hP1len : (P1.length : Int) = (arr.length : Int) := by rw [Plen]
        obtain ⟨Alen, Aperm, Aunt, Atr, Asort⟩ :=
          ih P1 low (p - 1) (by omega) h0 (by rw [hP1len]; omega)
        set A1 := SortDemo.quickSortImpl P1 low (p - 1) with hA1def
        have hA1len : (A1.length : Int) = (arr.length : Int) := by rw [Alen, Plen]
        obtain ⟨Blen, Bperm, Bunt, Btr, Bsort⟩ :=
          ih A1 (p + 1) high (by omega) (by omega) (by rw [hA1len]; omega)
        have hpiv : SortDemo.geti A1 p = SortDemo.geti P1 p :=
          Aunt p (by omega) (Or.inr (by omega))
        have hpiv2 : SortDemo.geti (SortDemo.quickSortImpl A1 (p + 1) high) p =
            SortDemo.geti P1 p := by
          rw [Bunt p (by omega) (Or.inl (by omega)), hpiv]
        have hleft : ∀ q : Int, low ≤ q → q ≤ p - 1 →
            SortDemo.geti (SortDemo.quickSortImpl A1 (p + 1) high) q <
              SortDemo.geti P1 p := by
          intro q hq1 hq2
          rw [Bunt q (by omega) (Or.inl (by omega))]
          obtain ⟨m1, hm1, hm2, hmv⟩ := Atr q hq1 hq2
          rw [hmv]
          exact Pleft m1 hm1 (by omega)
        have hright : ∀ q : Int, p + 1 ≤ q → q ≤ high →
            SortDemo.geti P1 p ≤
              SortDemo.geti (SortDemo.quickSortImpl A1 (p + 1) high) q := by
          intro q hq1 hq2
          obtain ⟨m2, hm1, hm2, hmv⟩ := Btr q hq1 hq2
          rw [hmv, Aunt m2 (by omega) (Or.inr (by omega))]
          exact Pright m2 (by omega) hm2
        refine ⟨?_, ?_, ?_, ?_, ?_⟩
        · rw [Blen, Alen, Plen]
        · exact Bperm.trans (Aperm.trans Pperm)
        · intro k hk0 hk1
          rw [Bunt k hk0 (by omega), Aunt k hk0 (by omega)]
          exact Punt k hk0 hk1
        · intro k hk1 hk2
          have hk3 : k ≤ p - 1 ∨ k = p ∨ p + 1 ≤ k := by omega
          rcases hk3 with hk3 | hk3 | hk3
          · rw [Bunt k (by omega) (Or.inl (by omega))]
            obtain ⟨m1, hm1a, hm1b, hm1v⟩ := Atr k hk1 hk3
            obtain ⟨m0, hm0a, hm0b, hm0v⟩ := Ptr m1 hm1a (by omega)
            exact ⟨m0, hm0a, hm0b, by rw [hm1v, hm0v]⟩
          · obtain ⟨m0, hm0a, hm0b, hm0v⟩ := Ptr p (by omega) (by omega)
            exact ⟨m0, hm0a, hm0b, by rw [hk3, hpiv2]; exact hm0v⟩
          · obtain ⟨m2, hm2a, hm2b, hm2v⟩ := Btr k hk3 hk2
            have hstep : SortDemo.geti A1 m2 = SortDemo.geti P1 m2 :=
              Aunt m2 (by omega) (Or.inr (by omega))
            obtain ⟨m0, hm0a, hm0b, hm0v⟩ := Ptr m2 (by omega) hm2b
            exact ⟨m0, hm0a, hm0b, by rw [hm2v, hstep, hm0v]⟩
        · intro k l hk hkl hl
          have hck : k ≤ p - 1 ∨ k = p ∨ p + 1 ≤ k := by omega
          have hcl : l ≤ p - 1 ∨ l = p ∨ p + 1 ≤ l := by omega
          rcases hck with hck | hck | hck
          · rcases hcl with hcl | hcl | hcl
            · rw [Bunt k (by omega) (Or.inl (by omega)),
                Bunt l (by omega) (Or.inl (by omega))]
              exact Asort k l hk hkl hcl
            · rw [hcl, hpiv2]
              exact le_of_lt (hleft k hk hck)
            · exact le_trans (le_of_lt (hleft k hk hck)) (hright l hcl hl)
          · rcases hcl with hcl | hcl | hcl
            · exact absurd hkl (by omega)
            · rw [hck, hcl]
            · rw [hck, hpiv2]
              exact hright l hcl hl
          · rcases hcl with hcl | hcl | hcl
            · exact absurd hkl (by omega)
            · exact absurd hkl (by omega)
            · exact Bsort k l hck hkl hl
      · rw [dif_neg hlh]
        refine ⟨rfl, List.Perm.refl arr, fun k _ _ => rfl, ?_, ?_⟩
        · intro k hk1 hk2
          exact ⟨k, hk1, hk2, rfl⟩
        · intro k l hk hkl hl
          obtain rfl : k = l := by omega
          exact le_refl _

theorem SortDemo.geti_natCast (l : List Int) (a : Nat) (h : a < l.length) :
    SortDemo.geti l (a : Int) = l[a] := by
  simp [SortDemo.geti, List.getD_eq_getElem?_getD, List.getElem?_eq_getElem h]

/-- Claim C1 (confirmed): `quick_sort` sorts its argument: the result holds
the same multiset of elements as the input (it is a permutation of it),
arranged in non-decreasing order, and `quick_sort` of the empty vector
leaves it empty. -/
theorem claim_c1_quick_sort (arr : List Int) :
    List.Perm (SortDemo.quick_sort arr) arr ∧
    (SortDemo.quick_sort arr : Multiset Int) = (arr : Multiset Int) ∧
    List.Sorted (· ≤ ·) (SortDemo.quick_sort arr) ∧
    SortDemo.quick_sort [] = ([] : List Int) := by
  by_cases hemp : arr.isEmpty
  · have harr : arr = [] := List.isEmpty_iff.mp hemp
    subst harr
    exact ⟨List.Perm.refl _, rfl, List.sorted_nil, rfl⟩
  · have harr : SortDemo.quick_sort arr =
        SortDemo.quickSortImpl arr 0 ((arr.length : Int) - 1) := by
      unfold SortDemo.quick_sort
      rw [if_neg hemp]
    obtain ⟨Slen, Sperm, _, _, Ssort⟩ :=
      SortDemo.quickSortImpl_spec ((arr.length : Int) - 1 + 1 - 0).toNat arr 0
        ((arr.length : Int) - 1) (le_refl _) (le_refl 0) (by omega)
    refine ⟨?_, ?_, ?_, rfl⟩
    · rw [harr]
      exact Sperm
    · rw [harr]
      exact Multiset.coe_eq_coe.mpr Sperm
    · rw [harr]
      apply List.pairwise_iff_getElem.mpr
      intro a b ha hb hab
      have hga := SortDemo.geti_natCast
        (SortDemo.quickSortImpl arr 0 ((arr.length : Int) - 1)) a ha
      have hgb := SortDemo.geti_natCast
        (SortDemo.quickSortImpl arr 0 ((arr.length : Int) - 1)) b hb
      rw [← hga, ← hgb]
      have hb2 : b < arr.length := by
        rw [← Slen]
        exact hb
      exact Ssort (a : Int) (b : Int) (by omega) (by omega) (by omega)

/-! ### The `length_of_lis` tails invariant -/

theorem DpDemo.lowerBoundIdx_le (x : Int) :
    ∀ l : List Int, DpDemo.lowerBoundIdx l x ≤ l.length := by
  intro l
  induction l with
  | nil => exact Nat.le_refl 0
  | cons t ts ih =>
      simp only [DpDemo.lowerBoundIdx, List.length_cons]
      split
      · omega
      · exact Nat.zero_le _

theorem DpDemo.lowerBoundIdx_lt (x : Int) :
    ∀ (l : List Int) (i : Nat), i < DpDemo.lowerBoundIdx l x → l.getD i 0 < x := by
  intro l
  induction l with
  | nil => intro i h; simp [DpDemo.lowerBoundIdx] at h
  | cons t ts ih =>
      intro i h
      simp only [DpDemo.lowerBoundIdx] at h
      by_cases ht : t < x
      · rw [if_pos ht] at h
        cases i with
        | zero => simpa using ht
        | succ i2 => simpa using ih i2 (by omega)
      · rw [if_neg ht] at h
        omega

theorem DpDemo.lowerBoundIdx_ge (x : Int) :
    ∀ l : List Int, DpDemo.lowerBoundIdx l x < l.length →
      x ≤ l.getD (DpDemo.lowerBoundIdx l x) 0 := by
  intro l
  induction l with
  | nil => intro h; simp at h
  | cons t ts ih =>
      intro h
      simp only [DpDemo.lowerBoundIdx] at h ⊢
      by_cases ht : t < x
      · rw [if_pos ht] at h ⊢
        simp only [List.getD_cons_succ]
        exact ih (by simpa using h)
      · rw [if_neg ht] at h ⊢
        simpa using le_of_not_lt ht

theorem pairwise_lt_getD_lt (l : List Int) (hs : List.Pairwise (· < ·) l)
    (i j : Nat) (hij : i < j) (hj : j < l.length) : l.getD i 0 < l.getD j 0 := by
  have h := List.pairwise_iff_getElem.mp hs i j (by omega) hj hij
  rw [List.getD_eq_getElem?_getD, List.getElem?_eq_getElem (by omega : i < l.length),
    List.getD_eq_getElem?_getD, List.getElem?_eq_getElem hj]
  exact h

theorem pairwise_lt_getD_le (l : List Int) (hs : List.Pairwise (· < ·) l)
    (i j : Nat) (hij : i ≤ j) (hj : j < l.length) : l.getD i 0 ≤ l.getD j 0 := by
  rcases Nat.eq_or_lt_of_le hij with rfl | hlt
  · exact le_refl _
  · exact le_of_lt (pairwise_lt_getD_lt l hs i j hlt hj)

theorem pairwise_lt_of_getD (l : List Int)
    (h : ∀ i j : Nat, i < j → j < l.length → l.getD i 0 < l.getD j 0) :
    List.Pairwise (· < ·) l := by
  apply List.pairwise_iff_getElem.mpr
  intro i j hi hj hij
  have h2 := h i j hij hj
  rw [List.getD_eq_getElem?_getD, List.getElem?_eq_getElem hi,
    List.getD_eq_getElem?_getD, List.getElem?_eq_getElem hj] at h2
  exact h2

theorem DpDemo.Reach.mono {l : List Int} {k : Nat} {t : Int} (x : Int)
    (h : DpDemo.Reach l k t) : DpDemo.Reach (l ++ [x]) k t := by
  obtain ⟨s, hsub, hch, hlen, hlast⟩ := h
  exact ⟨s, hsub.trans (List.sublist_append_left l [x]), hch, hlen, hlast⟩

theorem DpDemo.Reach.extend {l : List Int} {k : Nat} {t : Int} {x : Int}
    (h : DpDemo.Reach l k t) (htx : t < x) : DpDemo.Reach (l ++ [x]) (k + 1) x := by
  obtain ⟨s, hsub, hch, hlen, hlast⟩ := h
  refine ⟨s ++ [x], hsub.append (List.Sublist.refl [x]), ?_, by simp [hlen],
    List.getLast?_concat s⟩
  rw [List.chain'_append]
  refine ⟨hch, List.chain'_singleton x, ?_⟩
  intro y hy z hz
  rw [hlast] at hy
  simp only [List.head?_cons, Option.mem_some_iff] at hy hz
  omega

theorem DpDemo.Reach.single (l : List Int) (x : Int) :
    DpDemo.Reach (l ++ [x]) 1 x :=
  ⟨[x], List.sublist_append_right l [x], List.chain'_singleton x, rfl, rfl⟩

theorem DpDemo.Reach.split {l : List Int} {x : Int} {k : Nat} {t : Int}
    (h : DpDemo.Reach (l ++ [x]) (k + 1) t) :
    DpDemo.Reach l (k + 1) t ∨
      (t = x ∧ (k = 0 ∨ ∃ t2 : Int, t2 < x ∧ DpDemo.Reach l k t2)) := by
  obtain ⟨s, hsub, hch, hlen, hlast⟩ := h
  rw [List.sublist_append_iff] at hsub
  obtain ⟨s1, s2, rfl, hs1, hs2⟩ := hsub
  cases hs2 with
  | cons _ h2 =>
      obtain rfl : s2 = [] := List.sublist_nil.mp h2
      rw [List.append_nil] at hch hlen hlast
      exact Or.inl ⟨s1, hs1, hch, hlen, hlast⟩
  | cons₂ _ h2 =>
      rw [List.sublist_nil] at h2
      subst h2
      right
      have hlast2 : t = x := by
        rw [List.getLast?_concat] at hlast
        exact (Option.some_inj.mp hlast).symm
      refine ⟨hlast2, ?_⟩
      rcases s1 with _ | ⟨b, s3⟩
      · left
        simpa using hlen
      · right
        have hne : (b :: s3) ≠ ([] : List Int) := by simp
        obtain ⟨t2, ht2⟩ := Option.isSome_iff_exists.mp (List.getLast?_isSome.mpr hne)
        rw [List.chain'_append] at hch
        obtain ⟨hch1, _, hcross⟩ := hch
        refine ⟨t2, ?_, ⟨b :: s3, hs1, hch1, by simpa using hlen, ht2⟩⟩
        exact hcross t2 (by rw [ht2]; exact Option.mem_some_iff.mpr rfl) x
          (by simp)

theorem DpDemo.tailsStep_inv (p tails : List Int) (x : Int)
    (h : DpDemo.TailsInv p tails) :
    DpDemo.TailsInv (p ++ [x]) (DpDemo.lisTailsStep tails x) := by
  obtain ⟨hsorted, hreach, hmin⟩ := h
  have hlble := DpDemo.lowerBoundIdx_le x tails
  have hjlt_of_lt : ∀ j : Nat, j < tails.length → tails.getD j 0 < x →
      j < DpDemo.lowerBoundIdx tails x := by
    intro j hj hjx
    by_contra hge
    push_neg at hge
    have h1 : x ≤ tails.getD (DpDemo.lowerBoundIdx tails x) 0 :=
      DpDemo.lowerBoundIdx_ge x tails (by omega)
    have h2 : tails.getD (DpDemo.lowerBoundIdx tails x) 0 ≤ tails.getD j 0 :=
      pairwise_lt_getD_le tails hsorted _ j hge hj
    omega
  unfold DpDemo.lisTailsStep
  by_cases hcase : DpDemo.lowerBoundIdx tails x = tails.length
  · rw [if_pos hcase]
    have hall : ∀ j : Nat, j < tails.length → tails.getD j 0 < x := by
      intro j hj
      exact DpDemo.lowerBoundIdx_lt x tails j (by omega)
    refine ⟨?_, ?_, ?_⟩
    · apply pairwise_lt_of_getD
      intro i j hij hj
      rw [List.length_append, List.length_singleton] at hj
      by_cases hjlen : j < tails.length
      · rw [getD_append_left _ _ _ _ (by omega), getD_append_left _ _ _ _ hjlen]
        exact pairwise_lt_getD_lt tails hsorted i j hij hjlen
      · rw [getD_append_left _ _ _ _ (by omega),
          getD_concat_of_len tails 0 x j (by omega)]
        exact hall i (by omega)
    · intro i hi
      rw [List.length_append, List.length_singleton] at hi
      by_cases hilen : i < tails.length
      · rw [getD_append_left _ _ _ _ hilen]
        exact DpDemo.Reach.mono x (hreach i hilen)
      · rw [getD_concat_of_len tails 0 x i (by omega)]
        cases htl : tails.length with
        | zero =>
            have hi0 : i = 0 := by omega
            rw [hi0]
            exact DpDemo.Reach.single p x
        | succ m =>
            have hrm := hreach m (by omega)
            have hmx : tails.getD m 0 < x := hall m (by omega)
            have hext := DpDemo.Reach.extend hrm hmx
            have hieq : i + 1 = m + 1 + 1 := by omega
            rw [hieq]
            exact hext
    · intro k t hk
      rcases DpDemo.Reach.split hk with hsplit | ⟨heq, hsplit⟩
      · obtain ⟨hk1, hk2⟩ := hmin k t hsplit
        constructor
        · rw [List.length_append, List.length_singleton]
          omega
        · rw [getD_append_left _ _ _ _ hk1]
          exact hk2
      · rw [heq]
        rcases hsplit with rfl | ⟨t2, ht2x, hr2⟩
        · constructor
          · rw [List.length_append, List.length_singleton]
            omega
          · by_cases h0 : tails.length = 0
            · rw [getD_concat_of_len tails 0 x 0 h0]
            · rw [getD_append_left _ _ _ _ (by omega)]
              exact le_of_lt (hall 0 (by omega))
        · cases k with
          | zero =>
              obtain ⟨s, _, _, hlen0, hlast0⟩ := hr2
              rw [List.length_eq_zero.mp hlen0] at hlast0
              simp at hlast0
          | succ k2 =>
              obtain ⟨hk1, hk2⟩ := hmin k2 t2 hr2
              have hklt : k2 < DpDemo.lowerBoundIdx tails x :=
                hjlt_of_lt k2 hk1 (by omega)
              constructor
              · rw [List.length_append, List.length_singleton]
                omega
              · by_cases hkl : k2 + 1 < tails.length
                · rw [getD_append_left _ _ _ _ hkl]
                  exact le_of_lt (hall (k2 + 1) hkl)
                · rw [getD_concat_of_len tails 0 x (k2 + 1) (by omega)]
  · rw [if_neg hcase]
    have hidxlt : DpDemo.lowerBoundIdx tails x < tails.length := by omega
    have hgex : x ≤ tails.getD (DpDemo.lowerBoundIdx tails x) 0 :=
      DpDemo.lowerBoundIdx_ge x tails hidxlt
    have hltx : ∀ j : Nat, j < DpDemo.lowerBoundIdx tails x → tails.getD j 0 < x :=
      fun j hj => DpDemo.lowerBoundIdx_lt x tails j hj
    have hlenset : (tails.set (DpDemo.lowerBoundIdx tails x) x).length = tails.length := by
      simp
    refine ⟨?_, ?_, ?_⟩
    · apply pairwise_lt_of_getD
      intro i j hij hj
      rw [hlenset] at hj
      by_cases hjidx : j = DpDemo.lowerBoundIdx tails x
      · rw [getD_set_ne _ _ _ _ _ (by omega), hjidx, getD_set_self _ _ _ _ hidxlt]
        exact hltx i (by omega)
      · by_cases hiidx : i = DpDemo.lowerBoundIdx tails x
        · rw [hiidx, getD_set_self _ _ _ _ hidxlt, getD_set_ne _ _ _ _ _ (by omega)]
          have hmono := pairwise_lt_getD_lt tails hsorted
            (DpDemo.lowerBoundIdx tails x) j (by omega) hj
          omega
        · rw [getD_set_ne _ _ _ _ _ (by omega), getD_set_ne _ _ _ _ _ (by omega)]
          exact pairwise_lt_getD_lt tails hsorted i j hij hj
    · intro i hi
      rw [hlenset] at hi
      by_cases hiidx : i = DpDemo.lowerBoundIdx tails x
      · rw [hiidx, getD_set_self _ _ _ _ hidxlt]
        cases hidx0 : DpDemo.lowerBoundIdx tails x with
        | zero => exact DpDemo.Reach.single p x
        | succ m =>
            have hrm := hreach m (by omega)
            have hmx : tails.getD m 0 < x := hltx m (by omega)
            exact DpDemo.Reach.extend hrm hmx
      · rw [getD_set_ne _ _ _ _ _ (by omega)]
        exact DpDemo.Reach.mono x (hreach i hi)
    · intro k t hk
      rcases DpDemo.Reach.split hk with hsplit | ⟨heq, hsplit⟩
      · obtain ⟨hk1, hk2⟩ := hmin k t hsplit
        refine ⟨by rw [hlenset]; omega, ?_⟩
        by_cases hkidx : k = DpDemo.lowerBoundIdx tails x
        · rw [hkidx, getD_set_self _ _ _ _ hidxlt]
          rw [hkidx] at hk2
          omega
        · rw [getD_set_ne _ _ _ _ _ (by omega)]
          exact hk2
      · rw [heq]
        rcases hsplit with rfl | ⟨t2, ht2x, hr2⟩
        · refine ⟨by rw [hlenset]; omega, ?_⟩
          by_cases h0idx : DpDemo.lowerBoundIdx tails x = 0
          · rw [show (0 : Nat) = DpDemo.lowerBoundIdx tails x from h0idx.symm,
              getD_set_self _ _ _ _ hidxlt]
          · rw [getD_set_ne _ _ _ _ _ (by omega)]
            exact le_of_lt (hltx 0 (by omega))
        · cases k with
          | zero =>
              obtain ⟨s, _, _, hlen0, hlast0⟩ := hr2
              rw [List.length_eq_zero.mp hlen0] at hlast0
              simp at hlast0
          | succ k2 =>
              obtain ⟨hk1, hk2⟩ := hmin k2 t2 hr2
              have hklt : k2 < DpDemo.lowerBoundIdx tails x :=
                hjlt_of_lt k2 hk1 (by omega)
              refine ⟨by rw [hlenset]; omega, ?_⟩
              by_cases hkidx : k2 + 1 = DpDemo.lowerBoundIdx tails x
              · rw [hkidx, getD_set_self _ _ _ _ hidxlt]
              · rw [getD_set_ne _ _ _ _ _ (by omega)]
                exact le_of_lt (hltx (k2 + 1) (by omega))

theorem DpDemo.tailsInv_nil : DpDemo.TailsInv [] [] := by
  refine ⟨List.Pairwise.nil, ?_, ?_⟩
  · intro i hi
    simp at hi
  · intro k t hr
    obtain ⟨s, hsub, _, hlen, hlast⟩ := hr
    rw [List.sublist_nil.mp hsub] at hlen
    simp at hlen

theorem DpDemo.tails_fold (rest : List Int) :
    ∀ (p tails : List Int), DpDemo.TailsInv p tails →
      DpDemo.TailsInv (p ++ rest) (rest.foldl DpDemo.lisTailsStep tails) := by
  induction rest with
  | nil =>
      intro p tails h
      simpa using h
  | cons x rest ih =>
      intro p tails h
      have h2 := DpDemo.tailsStep_inv p tails x h
      have h3 := ih (p ++ [x]) (DpDemo.lisTailsStep tails x) h2
      rw [List.append_assoc] at h3
      simpa using h3

theorem DpDemo.length_of_lis_spec (nums : List Int) :
    (∃ s : List Int, s.Sublist nums ∧ List.Chain' (· < ·) s ∧
      (s.length : Int) = DpDemo.length_of_lis nums) ∧
    (∀ s : List Int, s.Sublist nums → List.Chain' (· < ·) s →
      (s.length : Int) ≤ DpDemo.length_of_lis nums) := by
  have hinv := DpDemo.tails_fold nums [] [] DpDemo.tailsInv_nil
  rw [List.nil_append] at hinv
  obtain ⟨hsorted, hreach, hmin⟩ := hinv
  have hlis : DpDemo.length_of_lis nums =
      ((nums.foldl DpDemo.lisTailsStep []).length : Int) := rfl
  constructor
  · rcases hT : (nums.foldl DpDemo.lisTailsStep []).length with _ | m
    · refine ⟨[], List.nil_sublist nums, List.chain'_nil, ?_⟩
      rw [hlis, hT]
      rfl
    · obtain ⟨s, hsub, hch, hlen, _⟩ := hreach m (by omega)
      refine ⟨s, hsub, hch, ?_⟩
      rw [hlis, hT, hlen]
  · intro s hsub hch
    rcases List.eq_nil_or_concat s with rfl | ⟨s2, y, rfl⟩
    · rw [hlis]
      simp
    · rw [List.concat_eq_append] at hsub hch ⊢
      have hr : DpDemo.Reach nums (s2.length + 1) y :=
        ⟨s2 ++ [y], hsub, hch, by simp, List.getLast?_concat s2⟩
      obtain ⟨hk1, _⟩ := hmin s2.length y hr
      rw [hlis]
      simp only [List.length_append, List.length_singleton]
      omega

/-! ### The `length_of_lis_n2` table invariant -/

theorem DpDemo.lisFold_ge_init (x : Int) :
    ∀ (l : List (Int × Int)) (a : Int),
      a ≤ l.foldl (fun mx q => if q.1 < x then max mx (q.2 + 1) else mx) a := by
  intro l
  induction l with
  | nil => intro a; exact le_refl a
  | cons q0 l ih =>
      intro a
      rw [List.foldl_cons]
      refine le_trans ?_ (ih _)
      split
      · exact le_max_left _ _
      · exact le_refl a

theorem DpDemo.lisFold_ge_mem (x : Int) :
    ∀ (l : List (Int × Int)) (a : Int) (q : Int × Int), q ∈ l → q.1 < x →
      q.2 + 1 ≤ l.foldl (fun mx q2 => if q2.1 < x then max mx (q2.2 + 1) else mx) a := by
  intro l
  induction l with
  | nil => intro a q h; simp at h
  | cons q0 l ih =>
      intro a q hmem hq
      rw [List.foldl_cons]
      rcases List.mem_cons.mp hmem with rfl | hmem2
      · refine le_trans ?_ (DpDemo.lisFold_ge_init x l _)
        rw [if_pos hq]
        exact le_max_right _ _
      · exact ih _ q hmem2 hq

theorem DpDemo.lisFold_cases (x : Int) :
    ∀ (l : List (Int × Int)) (a : Int),
      l.foldl (fun mx q => if q.1 < x then max mx (q.2 + 1) else mx) a = a ∨
      ∃ q, q ∈ l ∧ q.1 < x ∧
        l.foldl (fun mx q2 => if q2.1 < x then max mx (q2.2 + 1) else mx) a = q.2 + 1 := by
  intro l
  induction l with
  | nil => intro a; exact Or.inl rfl
  | cons q0 l ih =>
      intro a
      rw [List.foldl_cons]
      by_cases hq : q0.1 < x
      · rw [if_pos hq]
        rcases ih (max a (q0.2 + 1)) with h | ⟨q, hm, h1, h2⟩
        · rcases le_total a (q0.2 + 1) with hmax | hmax
          · right
            exact ⟨q0, by simp, hq, by rw [h, max_eq_right hmax]⟩
          · left
            rw [h, max_eq_left hmax]
        · right
          exact ⟨q, by simp [hm], h1, h2⟩
      · rw [if_neg hq]
        rcases ih a with h | ⟨q, hm, h1, h2⟩
        · exact Or.inl h
        · right
          exact ⟨q, by simp [hm], h1, h2⟩

theorem DpDemo.lisMaxFold_ge_init :
    ∀ (l : List (Int × Int)) (a : Int), a ≤ l.foldl (fun mx q => max mx q.2) a := by
  intro l
  induction l with
  | nil => intro a; exact le_refl a
  | cons q0 l ih =>
      intro a
      rw [List.foldl_cons]
      exact le_trans (le_max_left _ _) (ih _)

theorem DpDemo.lisMaxFold_ge_mem :
    ∀ (l : List (Int × Int)) (a : Int) (q : Int × Int), q ∈ l →
      q.2 ≤ l.foldl (fun mx q2 => max mx q2.2) a := by
  intro l
  induction l with
  | nil => intro a q h; simp at h
  | cons q0 l ih =>
      intro a q hmem
      rw [List.foldl_cons]
      rcases List.mem_cons.mp hmem with rfl | hmem2
      · exact le_trans (le_max_right _ _) (DpDemo.lisMaxFold_ge_init l _)
      · exact ih _ q hmem2

theorem DpDemo.lisMaxFold_cases :
    ∀ (l : List (Int × Int)) (a : Int),
      l.foldl (fun mx q => max mx q.2) a = a ∨
      ∃ q, q ∈ l ∧ l.foldl (fun mx q2 => max mx q2.2) a = q.2 := by
  intro l
  induction l with
  | nil => intro a; exact Or.inl rfl
  | cons q0 l ih =>
      intro a
      rw [List.foldl_cons]
      rcases ih (max a q0.2) with h | ⟨q, hm, h2⟩
      · rcases le_total a q0.2 with hmax | hmax
        · right
          exact ⟨q0, by simp, by rw [h, max_eq_right hmax]⟩
        · left
          rw [h, max_eq_left hmax]
      · right
        exact ⟨q, by simp [hm], h2⟩

theorem take_succ_getD (p : List Int) (i : Nat) (hi : i < p.length) :
    p.take (i + 1) = p.take i ++ [p.getD i 0] := by
  rw [List.take_succ, List.getElem?_eq_getElem hi]
  rw [List.getD_eq_getElem?_getD, List.getElem?_eq_getElem hi]
  rfl

theorem DpDemo.EndAt.sublist {p : List Int} {i : Nat} {s : List Int}
    (h : DpDemo.EndAt p i s) (hi : i < p.length) : s.Sublist p := by
  obtain ⟨s2, rfl, hsub⟩ := h
  have h1 : (s2 ++ [p.getD i 0]).Sublist (p.take i ++ [p.getD i 0]) :=
    hsub.append (List.Sublist.refl _)
  have h2 : (p.take i ++ [p.getD i 0]).Sublist p := by
    rw [← take_succ_getD p i hi]
    exact List.take_sublist (i + 1) p
  exact h1.trans h2

theorem sublist_concat_endAt :
    ∀ (p s : List Int) (y : Int), (s ++ [y]).Sublist p →
      ∃ i : Nat, i < p.length ∧ p.getD i 0 = y ∧ s.Sublist (p.take i) := by
  intro p
  induction p with
  | nil =>
      intro s y h
      have := List.sublist_nil.mp h
      simp at this
  | cons a p ih =>
      intro s y h
      cases s with
      | nil =>
          rw [List.nil_append] at h
          cases h with
          | cons _ h2 =>
              obtain ⟨i, hi, hv, hs⟩ := ih [] y h2
              exact ⟨i + 1, by simpa using hi, by simpa using hv, List.nil_sublist _⟩
          | cons₂ _ h2 =>
              exact ⟨0, by simp, by simp, List.nil_sublist _⟩
      | cons b s2 =>
          rw [List.cons_append] at h
          cases h with
          | cons _ h2 =>
              obtain ⟨i, hi, hv, hs⟩ := ih (b :: s2) y h2
              refine ⟨i + 1, by simpa using hi, by simpa using hv, ?_⟩
              rw [List.take_succ_cons]
              exact hs.trans (List.sublist_cons_self a _)
          | cons₂ _ h2 =>
              obtain ⟨i, hi, hv, hs⟩ := ih s2 y h2
              refine ⟨i + 1, by simpa using hi, by simpa using hv, ?_⟩
              rw [List.take_succ_cons]
              exact hs.cons₂ a

theorem getD_map_fst (acc : List (Int × Int)) (j : Nat) (h : j < acc.length) :
    (acc.map Prod.fst).getD j 0 = (acc.getD j (0, 0)).1 := by
  rw [List.getD_eq_getElem?_getD, List.getD_eq_getElem?_getD,
    List.getElem?_eq_getElem (by simpa using h), List.getElem?_eq_getElem h]
  simp

theorem DpDemo.endAt_append (p : List Int) (x : Int) (i : Nat) (hi : i < p.length)
    (s : List Int) : DpDemo.EndAt (p ++ [x]) i s ↔ DpDemo.EndAt p i s := by
  unfold DpDemo.EndAt
  rw [getD_append_left _ _ _ _ hi, List.take_append_of_le_length (by omega)]

theorem DpDemo.pairsStep_inv (p : List Int) (acc : List (Int × Int)) (x : Int)
    (h : DpDemo.PairsInv p acc) :
    DpDemo.PairsInv (p ++ [x]) (DpDemo.lisDpStep acc x) := by
  obtain ⟨hmap, hent⟩ := h
  have hlen : acc.length = p.length := by
    rw [← hmap, List.length_map]
  have hfst : ∀ j : Nat, j < acc.length → (acc.getD j (0, 0)).1 = p.getD j 0 := by
    intro j hj
    rw [← getD_map_fst acc j hj, hmap]
  have hgetnew : (p ++ [x]).getD p.length 0 = x := getD_concat_self p 0 x
  have htakenew : (p ++ [x]).take p.length = p := by
    rw [List.take_append_of_le_length (le_refl _), List.take_length]
  unfold DpDemo.lisDpStep
  constructor
  · rw [List.map_append, hmap]
    rfl
  · intro i hi
    rw [List.length_append, List.length_singleton] at hi
    by_cases hilen : i < acc.length
    · rw [getD_append_left _ _ _ _ hilen]
      obtain ⟨he1, he2, he3⟩ := hent i hilen
      refine ⟨he1, ?_, ?_⟩
      · obtain ⟨s, hsa, hsb, hsc⟩ := he2
        exact ⟨s, (DpDemo.endAt_append p x i (by omega) s).mpr hsa, hsb, hsc⟩
      · intro s hsa hsb
        exact he3 s ((DpDemo.endAt_append p x i (by omega) s).mp hsa) hsb
    · have hieq : acc.length = i := by omega
      have hip : i = p.length := by omega
      rw [getD_concat_of_len acc (0, 0) _ i hieq]
      refine ⟨DpDemo.lisFold_ge_init x acc 1, ?_, ?_⟩
      · rcases DpDemo.lisFold_cases x acc 1 with hca | ⟨q, hqm, hqx, hqv⟩
        · refine ⟨[x], ⟨[], by rw [hip, hgetnew, List.nil_append], List.nil_sublist _⟩,
            List.chain'_singleton x, by simp [hca]⟩
        · obtain ⟨j, hj, hjq⟩ := List.mem_iff_getElem.mp hqm
          have hjd : acc.getD j (0, 0) = q := by
            rw [List.getD_eq_getElem?_getD, List.getElem?_eq_getElem hj]
            exact hjq
          obtain ⟨_, he2j, _⟩ := hent j hj
          obtain ⟨sj, hsja, hsjb, hsjc⟩ := he2j
          have hjlast : sj.getLast? = some (p.getD j 0) := by
            obtain ⟨s2, rfl, _⟩ := hsja
            exact List.getLast?_concat s2
          have hjval : p.getD j 0 < x := by
            rw [← hfst j hj, hjd]
            exact hqx
          refine ⟨sj ++ [x], ⟨sj, by rw [hip, hgetnew], ?_⟩, ?_, ?_⟩
          · rw [hip, htakenew]
            exact DpDemo.EndAt.sublist hsja (by omega)
          · rw [List.chain'_append]
            refine ⟨hsjb, List.chain'_singleton x, ?_⟩
            intro y hy z hz
            rw [hjlast] at hy
            simp only [List.head?_cons, Option.mem_some_iff] at hy hz
            omega
          · rw [hqv]
            simp only [List.length_append, List.length_singleton]
            push_cast
            rw [hsjc, hjd]
      · intro s hsa hsb
        obtain ⟨s2, hs2eq, hs2sub⟩ := hsa
        rw [hip, htakenew] at hs2sub
        rw [hip, hgetnew] at hs2eq
        subst hs2eq
        rcases List.eq_nil_or_concat s2 with rfl | ⟨s3, y, rfl⟩
        · simpa using DpDemo.lisFold_ge_init x acc 1
        · obtain ⟨j, hj, hjv, hjsub⟩ :=
            sublist_concat_endAt p s3 y (by simpa using hs2sub)
          have hEnd : DpDemo.EndAt p j (s3 ++ [y]) := ⟨s3, by rw [hjv], hjsub⟩
          have hsb2 := hsb
          rw [List.concat_eq_append, List.chain'_append] at hsb2
          obtain ⟨hch2, _, hcross⟩ := hsb2
          have hylt : y < x :=
            hcross y (by rw [List.getLast?_concat]; exact Option.mem_some_iff.mpr rfl)
              x (by simp)
          obtain ⟨_, _, he3j⟩ := hent j (by omega)
          have hlen_le := he3j (s3 ++ [y]) hEnd hch2
          have hqmem : acc.getD j (0, 0) ∈ acc := by
            rw [List.getD_eq_getElem?_getD,
              List.getElem?_eq_getElem (show j < acc.length by omega)]
            exact List.getElem_mem _
          have hfold := DpDemo.lisFold_ge_mem x acc 1 (acc.getD j (0, 0)) hqmem
            (by rw [hfst j (by omega), hjv]; exact hylt)
          rw [List.concat_eq_append]
          simp only [List.length_append, List.length_singleton]
          push_cast
          simp only [List.length_append, List.length_singleton] at hlen_le
          push_cast at hlen_le
          omega

theorem DpDemo.pairsInv_nil : DpDemo.PairsInv [] [] := by
  refine ⟨rfl, ?_⟩
  intro i hi
  simp at hi

theorem DpDemo.pairs_fold (rest : List Int) :
    ∀ (p : List Int) (acc : List (Int × Int)), DpDemo.PairsInv p acc →
      DpDemo.PairsInv (p ++ rest) (rest.foldl DpDemo.lisDpStep acc) := by
  induction rest with
  | nil =>
      intro p acc h
      simpa using h
  | cons x rest ih =>
      intro p acc h
      have h2 := DpDemo.pairsStep_inv p acc x h
      have h3 := ih (p ++ [x]) (DpDemo.lisDpStep acc x) h2
      rw [List.append_assoc] at h3
      simpa using h3

theorem DpDemo.length_of_lis_n2_spec (nums : List Int) :
    (∃ s : List Int, s.Sublist nums ∧ List.Chain' (· < ·) s ∧
      (s.length : Int) = DpDemo.length_of_lis_n2 nums) ∧
    (∀ s : List Int, s.Sublist nums → List.Chain' (· < ·) s →
      (s.length : Int) ≤ DpDemo.length_of_lis_n2 nums) := by
  by_cases hnil : nums = []
  · subst hnil
    constructor
    · exact ⟨[], List.nil_sublist _, List.chain'_nil, rfl⟩
    · intro s hsub _
      rw [List.sublist_nil.mp hsub]
      exact le_refl 0
  · have hinv := DpDemo.pairs_fold nums [] [] DpDemo.pairsInv_nil
    rw [List.nil_append] at hinv
    obtain ⟨hmap, hent⟩ := hinv
    have hlenacc : (nums.foldl DpDemo.lisDpStep []).length = nums.length := by
      have hh := congrArg List.length hmap
      rwa [List.length_map] at hh
    have hn2 : DpDemo.length_of_lis_n2 nums =
        (nums.foldl DpDemo.lisDpStep []).foldl (fun mx q => max mx q.2) 1 := by
      unfold DpDemo.length_of_lis_n2
      rw [if_neg hnil]
      rfl
    constructor
    · rcases DpDemo.lisMaxFold_cases (nums.foldl DpDemo.lisDpStep []) 1 with
        hca | ⟨q, hqm, hqv⟩
      · obtain ⟨n0, rest, hcons⟩ := List.exists_cons_of_ne_nil hnil
        refine ⟨[n0], ?_, List.chain'_singleton n0, ?_⟩
        · rw [hcons]
          exact (List.nil_sublist rest).cons₂ n0
        · rw [hn2, hca]
          rfl
      · obtain ⟨j, hj, hjq⟩ := List.mem_iff_getElem.mp hqm
        have hjd : (nums.foldl DpDemo.lisDpStep []).getD j (0, 0) = q := by
          rw [List.getD_eq_getElem?_getD, List.getElem?_eq_getElem hj]
          exact hjq
        obtain ⟨_, he2, _⟩ := hent j hj
        obtain ⟨s, hsa, hsb, hsc⟩ := he2
        refine ⟨s, DpDemo.EndAt.sublist hsa (by omega), hsb, ?_⟩
        rw [hn2, hqv, hsc, hjd]
    · intro s hsub hch
      rcases List.eq_nil_or_concat s with rfl | ⟨s3, y, rfl⟩
      · rw [hn2]
        have h1 := DpDemo.lisMaxFold_ge_init (nums.foldl DpDemo.lisDpStep []) 1
        simp only [List.length_nil]
        push_cast
        omega
      · obtain ⟨j, hj, hjv, hjsub⟩ :=
          sublist_concat_endAt nums s3 y (by simpa using hsub)
        have hEnd : DpDemo.EndAt nums j (s3 ++ [y]) := ⟨s3, by rw [hjv], hjsub⟩
        obtain ⟨_, _, he3⟩ := hent j (by omega)
        have hle := he3 (s3 ++ [y]) hEnd
          (by rw [List.concat_eq_append] at hch; exact hch)
        have hqmem : (nums.foldl DpDemo.lisDpStep []).getD j (0, 0) ∈
            nums.foldl DpDemo.lisDpStep [] := by
          rw [List.getD_eq_getElem?_getD, List.getElem?_eq_getElem
            (show j < (nums.foldl DpDemo.lisDpStep []).length by omega)]
          exact List.getElem_mem _
        have hfold := DpDemo.lisMaxFold_ge_mem (nums.foldl DpDemo.lisDpStep []) 1 _ hqmem
        rw [hn2, List.concat_eq_append]
        omega

/-- Claim C6 (confirmed): the quadratic `length_of_lis_n2` and the
`lower_bound`-based `length_of_lis` return the same value on every vector of
ints, namely the length of the longest strictly increasing subsequence, and
both return `0` on the empty vector. -/
theorem claim_c6_lis (nums : List Int) :
    DpDemo.length_of_lis_n2 nums = DpDemo.length_of_lis nums ∧
    (∃ s : List Int, s.Sublist nums ∧ List.Chain' (· < ·) s ∧
      (s.length : Int) = DpDemo.length_of_lis nums) ∧
    (∀ s : List Int, s.Sublist nums → List.Chain' (· < ·) s →
      (s.length : Int) ≤ DpDemo.length_of_lis nums) ∧
    DpDemo.length_of_lis_n2 [] = 0 ∧ DpDemo.length_of_lis [] = 0 := by
  obtain ⟨⟨s1, hs1a, hs1b, hs1c⟩, hub1⟩ := DpDemo.length_of_lis_n2_spec nums
  obtain ⟨⟨s2, hs2a, hs2b, hs2c⟩, hub2⟩ := DpDemo.length_of_lis_spec nums
  have heq : DpDemo.length_of_lis_n2 nums = DpDemo.length_of_lis nums := by
    have h1 := hub2 s1 hs1a hs1b
    have h2 := hub1 s2 hs2a hs2b
    omega
  exact ⟨heq, ⟨s2, hs2a, hs2b, hs2c⟩, hub2, rfl, rfl⟩

/-- Witness for C6 at the concrete input `[10, 9, 2, 5, 3, 7, 101, 18]`
(longest strictly increasing subsequence length `4`). -/
theorem claim_c6_witness :
    DpDemo.length_of_lis_n2 [10, 9, 2, 5, 3, 7, 101, 18] =
      DpDemo.length_of_lis [10, 9, 2, 5, 3, 7, 101, 18] ∧
    (∃ s : List Int, s.Sublist [10, 9, 2, 5, 3, 7, 101, 18] ∧
      List.Chain' (· < ·) s ∧
      (s.length : Int) = DpDemo.length_of_lis [10, 9, 2, 5, 3, 7, 101, 18]) ∧
    (∀ s : List Int, s.Sublist [10, 9, 2, 5, 3, 7, 101, 18] →
      List.Chain' (· < ·) s →
      (s.length : Int) ≤ DpDemo.length_of_lis [10, 9, 2, 5, 3, 7, 101, 18]) ∧
    DpDemo.length_of_lis_n2 [] = 0 ∧ DpDemo.length_of_lis [] = 0 :=
  claim_c6_lis [10, 9, 2, 5, 3, 7, 101, 18]
